import Mathlib

/-!
# Verification of the compound spline track core

Shallow embedding of `CCompoundSplineTrack`
(`dev/Gems/Maestro/Code/Source/Cinematics/CompoundSplineTrack.cpp`).

Float scalars of the C++ are modelled as rationals.  The spline sub-track
collaborator (`C2DSplineTrack` / `AnimSplineTrack`) and the transform
collaborator (`AZ::Transform`, the AzFramework Euler-degree conversion) are
not among the sampled sources; definitions for them are modelled from the
spec and are marked `Modelled from the spec:` in their doc comments.
-/

/-- One key of a scalar sub-track: (time, value, selected flag), spec section 3. -/
structure Key where
  time : ℚ
  value : ℚ
  selected : Bool
deriving DecidableEq

/-- A sub-track is its ordered list of keys. -/
abbrev SubTrack := List Key

/-- First key with exactly the given time, if any. -/
def keyAt : SubTrack → ℚ → Option Key
  | [], _ => none
  | k :: ks, t => if k.time = t then some k else keyAt ks t

/-- Modelled from the spec: sub-track `GetValue(time)` returns the stored key
value at an exact key time; elsewhere it returns the sub-track's own
interpolation, which is outside this core (spec section 1) and is therefore an
opaque parameter.  The `applyMultiplier` argument is opaque sub-track state
(spec section 4.1) and is not modelled. -/
def subGetValue (interp : SubTrack → ℚ → ℚ) (st : SubTrack) (t : ℚ) : ℚ :=
  match keyAt st t with
  | some k => k.value
  | none => interp st t

/-- Overwrite the value of the first key holding the given time. -/
def replaceVal : SubTrack → ℚ → ℚ → SubTrack
  | [], _, _ => []
  | k :: ks, t, v =>
    if k.time = t then { k with value := v } :: ks else k :: replaceVal ks t v

/-- Insert a key keeping keys ordered by time (before the first strictly later key). -/
def insertKey : SubTrack → Key → SubTrack
  | [], key => [key]
  | k :: ks, key =>
    if key.time < k.time then key :: k :: ks else k :: insertKey ks key

/-- Whether some key holds exactly the given time. -/
def hasKeyAt : SubTrack → ℚ → Bool
  | [], _ => false
  | k :: ks, t => k.time == t || hasKeyAt ks t

/-- Modelled from the spec: sub-track `SetValue(time, value, bDefault)`.  With
`bDefault` the spline track records a default value, which is outside the key
data modelled here; otherwise the key at that exact time is overwritten, or a
key is created at that time (write-through semantics, spec section 4.4). -/
def subSetValue (st : SubTrack) (t v : ℚ) (bDefault : Bool) : SubTrack :=
  if bDefault then st
  else if hasKeyAt st t then replaceVal st t v
  else insertKey st ⟨t, v, false⟩

/-- Modelled from the spec: sub-track `GetKeyTime(localIndex)`. -/
def subGetKeyTime (st : SubTrack) (k : ℕ) : ℚ :=
  (st.getD k ⟨0, 0, false⟩).time

/-- Modelled from the spec: sub-track `SetKeyTime(localIndex, time)`. -/
def subSetKeyTime (st : SubTrack) (k : ℕ) (t : ℚ) : SubTrack :=
  st.modify (fun key => { key with time := t }) k

/-- Modelled from the spec: sub-track `IsKeySelected(localIndex)`. -/
def subIsKeySelected (st : SubTrack) (k : ℕ) : Bool :=
  (st.getD k ⟨0, 0, false⟩).selected

/-- Modelled from the spec: sub-track `SelectKey(localIndex, bool)`. -/
def subSelectKey (st : SubTrack) (k : ℕ) (b : Bool) : SubTrack :=
  st.modify (fun key => { key with selected := b }) k

/-- The parameter types the compound track special-cases (`AnimParamType`). -/
inductive AnimParamType where
  | Position
  | Rotation
  | Scale
  | Generic
deriving DecidableEq

/-- The compound track: the list of its active sub-tracks (the first
`m_nDimensions` slots of `m_subTracks`) and its parameter type.  Fields not
touched by the verified operations (display names, flags, node reference,
value-type tag) are omitted. -/
structure CompoundTrack where
  subTracks : List SubTrack
  nParamType : AnimParamType
deriving DecidableEq

/-- `CCompoundSplineTrack::GetNumKeys`: sum of the active sub-tracks' key counts. -/
def totalKeys : List SubTrack → ℕ
  | [] => 0
  | st :: rest => st.length + totalKeys rest

/-- `CCompoundSplineTrack::GetNumKeys`. -/
def getNumKeys (tr : CompoundTrack) : ℕ :=
  totalKeys tr.subTracks

/-- `CCompoundSplineTrack::GetSubTrackIndex`: translate a flat key index into
(sub-track index, local index).  The C++ walks the sub-tracks keeping a running
count and overwrites its in/out `key` argument with `key - count`; `none`
models the `-1` not-found result. -/
def getSubTrackIndex : List SubTrack → ℕ → Option (ℕ × ℕ)
  | [], _ => none
  | st :: rest, f =>
    if f < st.length then some (0, f)
    else (getSubTrackIndex rest (f - st.length)).map (fun p => (p.1 + 1, p.2))

/-- Active sub-track at an index (the C++ dereferences `m_subTracks[i]`). -/
def getST (tr : CompoundTrack) (i : ℕ) : SubTrack :=
  tr.subTracks.getD i []

/-- Apply a function to the list element at an index, if present. -/
def updIdx {α : Type} : List α → ℕ → (α → α) → List α
  | [], _, _ => []
  | a :: as, 0, f => f a :: as
  | a :: as, n + 1, f => a :: updIdx as n f

/-- `CCompoundSplineTrack::RemoveKey`: translate the flat index, then delegate
to the owning sub-track; on failed translation (`i < 0`) return untouched. -/
def removeKeyFlat (tr : CompoundTrack) (f : ℕ) : CompoundTrack :=
  match getSubTrackIndex tr.subTracks f with
  | none => tr
  | some (i, l) => { tr with subTracks := updIdx tr.subTracks i (fun st => st.eraseIdx l) }

/-- `CCompoundSplineTrack::GetKeyTime`: translate, then read the key's time;
returns 0 on failed translation. -/
def getKeyTimeFlat (tr : CompoundTrack) (f : ℕ) : ℚ :=
  match getSubTrackIndex tr.subTracks f with
  | none => 0
  | some (i, l) => subGetKeyTime (getST tr i) l

/-- `CCompoundSplineTrack::SetKeyTime`: translate, then delegate; untouched on
failed translation. -/
def setKeyTimeFlat (tr : CompoundTrack) (f : ℕ) (time : ℚ) : CompoundTrack :=
  match getSubTrackIndex tr.subTracks f with
  | none => tr
  | some (i, l) => { tr with subTracks := updIdx tr.subTracks i (fun st => subSetKeyTime st l time) }

/-- `CCompoundSplineTrack::IsKeySelected`: translate, then read the selection
flag; returns false on failed translation. -/
def isKeySelectedFlat (tr : CompoundTrack) (f : ℕ) : Bool :=
  match getSubTrackIndex tr.subTracks f with
  | none => false
  | some (i, l) => subIsKeySelected (getST tr i) l

/-- `fabs` on the rational model of floats. -/
def fabsQ (q : ℚ) : ℚ :=
  if q < 0 then -q else q

/-- The inner scan of `CCompoundSplineTrack::SelectKey`: walk the keys in order
and apply the flag to the first key whose time is within the fixed epsilon
(0.001) of the given time, leaving every other key alone. -/
def selectFirstNear (keyTime : ℚ) (b : Bool) : SubTrack → SubTrack
  | [] => []
  | k :: ks =>
    if fabsQ (k.time - keyTime) < 1 / 1000 then { k with selected := b } :: ks
    else k :: selectFirstNear keyTime b ks

/-- `CCompoundSplineTrack::SelectKey`: translate the flat index to find the
key's time, then in every active sub-track select the first key within the
0.001 epsilon of that time; untouched on failed translation. -/
def selectKeyFlat (tr : CompoundTrack) (f : ℕ) (b : Bool) : CompoundTrack :=
  match getSubTrackIndex tr.subTracks f with
  | none => tr
  | some (i, l) =>
    { tr with subTracks := tr.subTracks.map (selectFirstNear (subGetKeyTime (getST tr i) l) b) }

/-- C4: flat-index round-trip.  For every flat index below `GetNumKeys()`,
`GetSubTrackIndex` finds a sub-track `i` and local index `l` with `l` in range
of sub-track `i`, and the key counts of the sub-tracks before `i` plus `l`
recover the flat index. -/
theorem getSubTrackIndex_roundTrip (sts : List SubTrack) (f : ℕ)
    (hf : f < totalKeys sts) :
    ∃ i l, getSubTrackIndex sts f = some (i, l) ∧
      ∃ h : i < sts.length, l < (sts.get ⟨i, h⟩).length ∧
        totalKeys (sts.take i) + l = f := by
  induction sts generalizing f with
  | nil => simp [totalKeys] at hf
  | cons st rest ih =>
    by_cases hlt : f < st.length
    · exact ⟨0, f, by simp [getSubTrackIndex, hlt], by simp, by simpa using hlt,
        by simp [totalKeys]⟩
    · have hrest : f - st.length < totalKeys rest := by
        simp [totalKeys] at hf
        omega
      obtain ⟨i, l, hix, hi, hl, hsum⟩ := ih (f - st.length) hrest
      refine ⟨i + 1, l, ?_, by simpa using hi, by simpa using hl, ?_⟩
      · simp [getSubTrackIndex, hlt, hix]
      · simp only [List.take_succ_cons, totalKeys]
        omega

/-- Concrete instance of the C4 round-trip theorem. -/
theorem getSubTrackIndex_roundTrip_witness :
    2 < totalKeys [[⟨0, 1, false⟩], [⟨1, 2, false⟩, ⟨3, 4, true⟩]] ∧
      ∃ i l, getSubTrackIndex [[⟨0, 1, false⟩], [⟨1, 2, false⟩, ⟨3, 4, true⟩]] 2 = some (i, l) ∧
        ∃ h : i < ([[⟨0, 1, false⟩], [⟨1, 2, false⟩, ⟨3, 4, true⟩]] : List SubTrack).length,
          l < (([[⟨0, 1, false⟩], [⟨1, 2, false⟩, ⟨3, 4, true⟩]] : List SubTrack).get ⟨i, h⟩).length ∧
            totalKeys (([[⟨0, 1, false⟩], [⟨1, 2, false⟩, ⟨3, 4, true⟩]] : List SubTrack).take i) + l = 2 :=
  ⟨by decide, getSubTrackIndex_roundTrip [[⟨0, 1, false⟩], [⟨1, 2, false⟩, ⟨3, 4, true⟩]] 2 (by decide)⟩

/-- C9: a failed flat-index translation touches no sub-track data.  When
`GetSubTrackIndex` reports failure, `RemoveKey`, `SetKeyTime` and `SelectKey`
leave the track unchanged, `GetKeyTime` returns 0, and `IsKeySelected`
returns false. -/
theorem failedTranslation_noTouch (tr : CompoundTrack) (f : ℕ) (time : ℚ) (b : Bool)
    (hfail : getSubTrackIndex tr.subTracks f = none) :
    removeKeyFlat tr f = tr ∧ setKeyTimeFlat tr f time = tr ∧
      selectKeyFlat tr f b = tr ∧ getKeyTimeFlat tr f = 0 ∧
      isKeySelectedFlat tr f = false := by
  refine ⟨?_, ?_, ?_, ?_, ?_⟩ <;>
    simp [removeKeyFlat, setKeyTimeFlat, selectKeyFlat, getKeyTimeFlat,
      isKeySelectedFlat, hfail]

/-- Concrete instance of the C9 no-touch theorem, at flat index 3 of a track
holding 3 keys. -/
theorem failedTranslation_noTouch_witness :
    removeKeyFlat ⟨[[⟨0, 1, false⟩], [⟨1, 2, false⟩, ⟨3, 4, true⟩]], .Position⟩ 3 =
        ⟨[[⟨0, 1, false⟩], [⟨1, 2, false⟩, ⟨3, 4, true⟩]], .Position⟩ ∧
      setKeyTimeFlat ⟨[[⟨0, 1, false⟩], [⟨1, 2, false⟩, ⟨3, 4, true⟩]], .Position⟩ 3 5 =
        ⟨[[⟨0, 1, false⟩], [⟨1, 2, false⟩, ⟨3, 4, true⟩]], .Position⟩ ∧
      selectKeyFlat ⟨[[⟨0, 1, false⟩], [⟨1, 2, false⟩, ⟨3, 4, true⟩]], .Position⟩ 3 true =
        ⟨[[⟨0, 1, false⟩], [⟨1, 2, false⟩, ⟨3, 4, true⟩]], .Position⟩ ∧
      getKeyTimeFlat ⟨[[⟨0, 1, false⟩], [⟨1, 2, false⟩, ⟨3, 4, true⟩]], .Position⟩ 3 = 0 ∧
      isKeySelectedFlat ⟨[[⟨0, 1, false⟩], [⟨1, 2, false⟩, ⟨3, 4, true⟩]], .Position⟩ 3 = false :=
  failedTranslation_noTouch ⟨[[⟨0, 1, false⟩], [⟨1, 2, false⟩, ⟨3, 4, true⟩]], .Position⟩ 3 5 true
    (by decide)

/-- Truncation toward zero, the rounding of C `fmod`'s implicit division. -/
def qtrunc (q : ℚ) : ℤ :=
  if 0 ≤ q then ⌊q⌋ else ⌈q⌉

/-- C `fmod` (`fmod_tpl`) on the rational model of floats: remainder with the
sign of the dividend, magnitude below the divisor. -/
def fmodQ (x y : ℚ) : ℚ :=
  x - y * qtrunc (x / y)

/-- `CCompoundSplineTrack::PreferShortestRotPath(degree, degree0)`: keep the
stored angle's turn count and pick, between `degree` and its 360-degree
alternate wrap, the representative closest to the stored principal angle. -/
def preferShortestRotPath (degree degree0arg : ℚ) : ℚ :=
  let degree00 := degree0arg
  let degree0 := fmodQ degree0arg 360
  let n := (degree00 - degree0) / 360
  let degreeAlt := if 0 ≤ degree then degree - 360 else degree + 360
  if fabsQ (degreeAlt - degree0) < fabsQ (degree - degree0) then degreeAlt + n * 360
  else degree + n * 360

/-- The C1 claim's own algorithm, written from its words: `principal` is the
previous angle mod 360 (same sign convention as the target's range, i.e. the
C `fmod` convention), `turns = (previous - principal) / 360`, the alternate
wrap is `target - 360` for nonnegative targets and `target + 360` otherwise,
and the result is whichever of target/alternate is closer in absolute
difference to `principal` (the target on a tie), plus `turns * 360`. -/
def claimedShortestRotPath (target previous : ℚ) : ℚ :=
  let principal := fmodQ previous 360
  let turns := (previous - principal) / 360
  let alt := if 0 ≤ target then target - 360 else target + 360
  (if fabsQ (alt - principal) < fabsQ (target - principal) then alt else target) + turns * 360

/-- C1: rotation continuity.  For every target angle in (-181, 181) and every
previously stored angle, `PreferShortestRotPath` returns the claim's formula:
the closer-to-principal wrap of the target plus the previous angle's full
turns; and at previous = 370, target = -10 the result is within 1e-4 of 350
(indeed exactly 350), not -10. -/
theorem preferShortestRotPath_spec :
    (∀ target previous : ℚ, -181 < target → target < 181 →
        preferShortestRotPath target previous = claimedShortestRotPath target previous) ∧
      fabsQ (preferShortestRotPath (-10) 370 - 350) < 1 / 10000 ∧
      preferShortestRotPath (-10) 370 ≠ -10 := by
  refine ⟨fun target previous _ _ => ?_, ?_, ?_⟩
  · simp only [preferShortestRotPath, claimedShortestRotPath]
    split_ifs <;> ring
  · norm_num [preferShortestRotPath, fmodQ, qtrunc, fabsQ]
  · norm_num [preferShortestRotPath, fmodQ, qtrunc, fabsQ]

/-- Concrete instance of the C1 formula (target 90, previous 0). -/
theorem preferShortestRotPath_spec_witness :
    preferShortestRotPath 90 0 = claimedShortestRotPath 90 0 :=
  preferShortestRotPath_spec.1 90 0 (by norm_num) (by norm_num)

/-- The stored value of the key at an exact time, if a key holds that time. -/
def keyValAt (st : SubTrack) (t : ℚ) : Option ℚ :=
  (keyAt st t).map (fun k => k.value)

theorem keyAt_replaceVal_same (st : SubTrack) (t v : ℚ) (h : hasKeyAt st t = true) :
    keyValAt (replaceVal st t v) t = some v := by
  induction st with
  | nil => simp [hasKeyAt] at h
  | cons k ks ih =>
    by_cases hk : k.time = t
    · simp [replaceVal, hk, keyValAt, keyAt]
    · have h' : hasKeyAt ks t = true := by
        simp only [hasKeyAt, Bool.or_eq_true, beq_iff_eq] at h
        rcases h with hc | hc
        · exact absurd hc hk
        · simpa [hasKeyAt] using hc
      simpa [replaceVal, hk, keyValAt, keyAt] using ih h'

theorem keyAt_insertKey_same (st : SubTrack) (key : Key) (h : hasKeyAt st key.time = false) :
    keyAt (insertKey st key) key.time = some key := by
  induction st with
  | nil => simp [insertKey, keyAt]
  | cons k ks ih =>
    by_cases hk : k.time = key.time
    · exfalso
      simp [hasKeyAt, hk] at h
    · have h' : hasKeyAt ks key.time = false := by
        by_cases h2 : hasKeyAt ks key.time
        · exfalso
          simp [hasKeyAt, h2] at h
        · simpa using h2
      by_cases hlt : key.time < k.time
      · simp [insertKey, hlt, keyAt]
      · simpa [insertKey, hlt, keyAt, hk] using ih h'

/-- Writing a value at a time makes that time's stored value readable back. -/
theorem keyValAt_subSetValue_same (st : SubTrack) (t v : ℚ) :
    keyValAt (subSetValue st t v false) t = some v := by
  by_cases h : hasKeyAt st t
  · simpa [subSetValue, h] using keyAt_replaceVal_same st t v h
  · have h0 : hasKeyAt st t = false := by simpa using h
    have hkey := keyAt_insertKey_same st ⟨t, v, false⟩ h0
    simp [subSetValue, h0, keyValAt, hkey]

theorem keyAt_replaceVal_other (st : SubTrack) (t v t' : ℚ) (hne : t' ≠ t) :
    keyAt (replaceVal st t v) t' = keyAt st t' := by
  induction st with
  | nil => simp [replaceVal]
  | cons k ks ih =>
    by_cases hk : k.time = t
    · have hkt' : ¬ k.time = t' := by
        rw [hk]
        exact fun hc => hne hc.symm
      have hne' : ¬ t = t' := fun hc => hne hc.symm
      simp [replaceVal, hk, keyAt, hkt', hne']
    · rw [replaceVal, if_neg hk]
      by_cases hk' : k.time = t'
      · simp [keyAt, hk']
      · simp [keyAt, hk', ih]

theorem keyAt_insertKey_other (st : SubTrack) (key : Key) (t' : ℚ) (hne : t' ≠ key.time) :
    keyAt (insertKey st key) t' = keyAt st t' := by
  have hkey : ¬ key.time = t' := fun hc => hne hc.symm
  induction st with
  | nil => simp [insertKey, keyAt, hkey]
  | cons k ks ih =>
    by_cases hlt : key.time < k.time
    · rw [insertKey, if_pos hlt]
      simp [keyAt, hkey]
    · rw [insertKey, if_neg hlt]
      by_cases hk' : k.time = t'
      · simp [keyAt, hk']
      · simp [keyAt, hk', ih]

/-- Writing at one time leaves the key stored at any other time unchanged. -/
theorem keyAt_subSetValue_other (st : SubTrack) (t v t' : ℚ) (b : Bool) (hne : t' ≠ t) :
    keyAt (subSetValue st t v b) t' = keyAt st t' := by
  rcases b with _ | _
  · by_cases h : hasKeyAt st t
    · simpa [subSetValue, h] using keyAt_replaceVal_other st t v t' hne
    · simpa [subSetValue, h] using keyAt_insertKey_other st ⟨t, v, false⟩ t' hne
  · simp [subSetValue]

/-- `CCompoundSplineTrack::GetValue(float)`: reads the first active sub-track
only (the C++ loop runs `i < 1 && i < m_nDimensions`); the out-parameter keeps
its caller-supplied value when no sub-track is active. -/
def getValueFloat (interp : SubTrack → ℚ → ℚ) (tr : CompoundTrack) (t value : ℚ) : ℚ :=
  match tr.subTracks with
  | [] => value
  | st :: _ => subGetValue interp st t

/-- `CCompoundSplineTrack::SetValue(float)`: writes the value through to every
active sub-track (`for i < m_nDimensions`). -/
def setValueFloat (tr : CompoundTrack) (t v : ℚ) (bDefault : Bool) : CompoundTrack :=
  { tr with subTracks := tr.subTracks.map (fun st => subSetValue st t v bDefault) }

/-- C8 counterexample: the Float shape of `SetValue` does not write to the
first active sub-track only.  On a 2-dimensional track with two empty
sub-tracks, `SetValue(0, 5, false)` creates a key on sub-track 1 as well. -/
theorem setValueFloat_hits_second_subTrack :
    (setValueFloat ⟨[[], []], .Generic⟩ 0 5 false).subTracks.getD 1 [] = [⟨0, 5, false⟩] ∧
      ([⟨0, 5, false⟩] : SubTrack) ≠ [] := by
  constructor
  · rfl
  · simp

/-- C8 amended: `SetValue(time, value, isDefaultKey, applyMultiplier)` in its
Float shape writes the value to every active sub-track, so it is not symmetric
to the Float shape of `GetValue`, which reads the first active sub-track only:
after a non-default Float write, every active sub-track holds the value at that
time, while the Float read ignores every sub-track beyond the first. -/
theorem setValueFloat_writes_every_subTrack (interp : SubTrack → ℚ → ℚ)
    (tr : CompoundTrack) (t v d : ℚ) (j : ℕ) (hj : j < tr.subTracks.length) :
    keyValAt ((setValueFloat tr t v false).subTracks.getD j []) t = some v ∧
      (∀ st rest rest', tr.subTracks = st :: rest →
        getValueFloat interp { tr with subTracks := st :: rest' } t d = subGetValue interp st t) := by
  constructor
  · have : (setValueFloat tr t v false).subTracks.getD j [] =
        subSetValue (tr.subTracks.getD j []) t v false := by
      simp [setValueFloat, List.getD_eq_getElem?_getD, List.getElem?_map]
      rcases h : tr.subTracks[j]? with _ | st
      · exact absurd (List.getElem?_eq_none_iff.mp h) (by omega)
      · simp
    rw [this]
    exact keyValAt_subSetValue_same _ t v
  · intro st rest rest' _
    simp [getValueFloat]

/-- Concrete instance of the C8 amended theorem: the write lands on sub-track 1
of a 2-dimensional track. -/
theorem setValueFloat_writes_every_subTrack_witness :
    keyValAt ((setValueFloat ⟨[[], []], .Generic⟩ 0 5 false).subTracks.getD 1 []) 0 = some 5 ∧
      (∀ st rest rest', (⟨[[], []], .Generic⟩ : CompoundTrack).subTracks = st :: rest →
        getValueFloat (fun _ _ => 0) { (⟨[[], []], .Generic⟩ : CompoundTrack) with subTracks := st :: rest' } 0 7 =
          subGetValue (fun _ _ => 0) st 0) :=
  setValueFloat_writes_every_subTrack (fun _ _ => 0) ⟨[[], []], .Generic⟩ 0 5 7 1 (by decide)

/-- A 3-float vector (`Vec3` / `AZ::Vector3`), componentwise arithmetic. -/
structure Vec3 where
  x : ℚ
  y : ℚ
  z : ℚ
deriving DecidableEq

instance : Add Vec3 :=
  ⟨fun a b => ⟨a.x + b.x, a.y + b.y, a.z + b.z⟩⟩

instance : Sub Vec3 :=
  ⟨fun a b => ⟨a.x - b.x, a.y - b.y, a.z - b.z⟩⟩

instance : Mul Vec3 :=
  ⟨fun a b => ⟨a.x * b.x, a.y * b.y, a.z * b.z⟩⟩

instance : Neg Vec3 :=
  ⟨fun a => ⟨-a.x, -a.y, -a.z⟩⟩

/-- One iteration of the `OffsetKeyPosition` inner loop: read the key time at
the local index, read the value stored there, add the offset, write it back. -/
def offStep (interp : SubTrack → ℚ → ℚ) (off : ℚ) (cur : SubTrack) (k : ℕ) : SubTrack :=
  subSetValue cur (subGetKeyTime cur k) (subGetValue interp cur (subGetKeyTime cur k) + off) false

/-- The per-sub-track loop of `CCompoundSplineTrack::OffsetKeyPosition`: the
key count is captured once up front, the state evolves through the writes. -/
def offTrack (interp : SubTrack → ℚ → ℚ) (st : SubTrack) (off : ℚ) : SubTrack :=
  (List.range st.length).foldl (offStep interp off) st

/-- `CCompoundSplineTrack::OffsetKeyPosition(offset)`: valid only for 3
dimensions (`assert(0)` otherwise, nothing written); offsets each sub-track's
keys by the matching component. -/
def offsetKeyPosition (interp : SubTrack → ℚ → ℚ) (tr : CompoundTrack) (offset : Vec3) :
    CompoundTrack :=
  match tr.subTracks with
  | [a, b, c] =>
    { tr with subTracks :=
        [offTrack interp a offset.x, offTrack interp b offset.y, offTrack interp c offset.z] }
  | _ => tr

/-- Every key shifted by the offset, times and selection untouched. -/
def bumpKeys (off : ℚ) (st : SubTrack) : SubTrack :=
  st.map (fun k => { k with value := k.value + off })

theorem replaceVal_map_time (st : SubTrack) (t v : ℚ) :
    (replaceVal st t v).map Key.time = st.map Key.time := by
  induction st with
  | nil => rfl
  | cons k ks ih =>
    by_cases hk : k.time = t
    · simp [replaceVal, hk]
    · simp [replaceVal, hk, ih]

theorem hasKeyAt_of_mem_time (st : SubTrack) (t : ℚ) (h : t ∈ st.map Key.time) :
    hasKeyAt st t = true := by
  induction st with
  | nil => simp at h
  | cons k ks ih =>
    rw [List.map_cons, List.mem_cons] at h
    rcases h with hc | hc
    · simp [hasKeyAt, hc.symm]
    · simp [hasKeyAt, ih hc]

theorem keyAt_nodup_getElem (st : SubTrack) (hnd : (st.map Key.time).Nodup) (j : ℕ)
    (hj : j < st.length) :
    keyAt st st[j].time = some st[j] := by
  induction st generalizing j with
  | nil => simp at hj
  | cons k ks ih =>
    rcases j with _ | j
    · simp [keyAt]
    · have hj' : j < ks.length := by simpa using hj
      have hmem : ks[j].time ∈ ks.map Key.time :=
        List.mem_map.mpr ⟨ks[j], List.getElem_mem hj', rfl⟩
      have hk : ¬ k.time = ks[j].time := by
        intro hc
        rw [List.map_cons, List.nodup_cons] at hnd
        exact hnd.1 (hc ▸ hmem)
      simpa [keyAt, hk] using ih (by rw [List.map_cons, List.nodup_cons] at hnd; exact hnd.2) j hj'

theorem subGetKeyTime_getElem (st : SubTrack) (k : ℕ) (hk : k < st.length) :
    subGetKeyTime st k = st[k].time := by
  simp [subGetKeyTime, List.getD_eq_getElem?_getD, List.getElem?_eq_getElem hk]

theorem times_offStep (interp : SubTrack → ℚ → ℚ) (off : ℚ) (cur : SubTrack) (k : ℕ)
    (hk : k < cur.length) :
    (offStep interp off cur k).map Key.time = cur.map Key.time := by
  have ht : subGetKeyTime cur k = cur[k].time := subGetKeyTime_getElem cur k hk
  have hmem : cur[k].time ∈ cur.map Key.time :=
    List.mem_map.mpr ⟨cur[k], List.getElem_mem hk, rfl⟩
  have hhas : hasKeyAt cur (subGetKeyTime cur k) = true := by
    rw [ht]; exact hasKeyAt_of_mem_time cur _ hmem
  simp [offStep, subSetValue, hhas, replaceVal_map_time]

theorem length_offStep (interp : SubTrack → ℚ → ℚ) (off : ℚ) (cur : SubTrack) (k : ℕ)
    (hk : k < cur.length) :
    (offStep interp off cur k).length = cur.length := by
  have := congrArg List.length (times_offStep interp off cur k hk)
  simpa using this

theorem offStep_cons (interp : SubTrack → ℚ → ℚ) (off : ℚ) (cur : SubTrack) (h' : Key) (k : ℕ)
    (hh : h'.time ∉ cur.map Key.time) (hnd : (cur.map Key.time).Nodup) (hk : k < cur.length) :
    offStep interp off (h' :: cur) (k + 1) = h' :: offStep interp off cur k := by
  have htime : subGetKeyTime (h' :: cur) (k + 1) = subGetKeyTime cur k := by
    simp [subGetKeyTime, List.getD_cons_succ]
  have ht : subGetKeyTime cur k = cur[k].time := subGetKeyTime_getElem cur k hk
  have hmem : cur[k].time ∈ cur.map Key.time :=
    List.mem_map.mpr ⟨cur[k], List.getElem_mem hk, rfl⟩
  have hne : ¬ h'.time = cur[k].time := fun hc => hh (hc ▸ hmem)
  have hkey : keyAt cur cur[k].time = some cur[k] := keyAt_nodup_getElem cur hnd k hk
  have hhas : hasKeyAt cur cur[k].time = true := hasKeyAt_of_mem_time cur _ hmem
  rw [offStep, offStep, htime, ht]
  have hget : subGetValue interp (h' :: cur) cur[k].time = subGetValue interp cur cur[k].time := by
    simp [subGetValue, keyAt, hne, hkey]
  rw [hget]
  have hhas' : hasKeyAt (h' :: cur) cur[k].time = true := by
    simp [hasKeyAt, hhas]
  simp [subSetValue, hhas, hhas', replaceVal, hne]

theorem offLoop_cons (interp : SubTrack → ℚ → ℚ) (off : ℚ) (ks : List ℕ) :
    ∀ (cur : SubTrack) (h' : Key), h'.time ∉ cur.map Key.time →
      (cur.map Key.time).Nodup → (∀ k ∈ ks, k < cur.length) →
      (ks.map Nat.succ).foldl (offStep interp off) (h' :: cur) =
        h' :: ks.foldl (offStep interp off) cur := by
  induction ks with
  | nil => intro cur h' _ _ _; rfl
  | cons k ks' ih =>
    intro cur h' hh hnd hlen
    have hk : k < cur.length := hlen k (List.mem_cons_self k ks')
    have hstep : offStep interp off (h' :: cur) (k + 1) = h' :: offStep interp off cur k :=
      offStep_cons interp off cur h' k hh hnd hk
    have htimes := times_offStep interp off cur k hk
    have hlen' := length_offStep interp off cur k hk
    simp only [List.map_cons, List.foldl_cons, Nat.succ_eq_add_one, hstep]
    exact ih (offStep interp off cur k) h' (htimes ▸ hh) (htimes ▸ hnd)
      (fun k' hk' => hlen' ▸ hlen k' (List.mem_cons_of_mem k hk'))

/-- With pairwise-distinct key times, the `OffsetKeyPosition` loop offsets
every key's value in place. -/
theorem offTrack_eq_bumpKeys (interp : SubTrack → ℚ → ℚ) (off : ℚ) (st : SubTrack)
    (hnd : (st.map Key.time).Nodup) :
    offTrack interp st off = bumpKeys off st := by
  induction st with
  | nil => rfl
  | cons h l ih =>
    rw [List.map_cons, List.nodup_cons] at hnd
    have hstep0 : offStep interp off (h :: l) 0 = { h with value := h.value + off } :: l := by
      have ht0 : subGetKeyTime (h :: l) 0 = h.time := by
        simp [subGetKeyTime]
      rw [offStep, ht0]
      have hv : subGetValue interp (h :: l) h.time = h.value := by
        simp [subGetValue, keyAt]
      rw [hv]
      simp [subSetValue, hasKeyAt, replaceVal]
    have hlen : (h :: l).length = l.length + 1 := rfl
    rw [offTrack, hlen, List.range_succ_eq_map, List.foldl_cons, hstep0]
    have hloop := offLoop_cons interp off (List.range l.length) l
      { h with value := h.value + off } hnd.1 hnd.2 (fun k hk => List.mem_range.mp hk)
    rw [hloop]
    have : (List.range l.length).foldl (offStep interp off) l = offTrack interp l off := rfl
    rw [this, ih hnd.2]
    rfl

/-- C7: `OffsetKeyPosition(v)` on a 3-dimensional track adds the matching
component of `v` to every existing key's stored value (at its own time, in
place), creates no new keys, and leaves `GetNumKeys()` unchanged.  Sub-track
key times are assumed pairwise distinct, the spline track's key-per-time
data-model invariant. -/
theorem offsetKeyPosition_spec (interp : SubTrack → ℚ → ℚ) (tr : CompoundTrack)
    (offset : Vec3) (a b c : SubTrack) (hdims : tr.subTracks = [a, b, c])
    (ha : (a.map Key.time).Nodup) (hb : (b.map Key.time).Nodup)
    (hc : (c.map Key.time).Nodup) :
    (offsetKeyPosition interp tr offset).subTracks =
        [bumpKeys offset.x a, bumpKeys offset.y b, bumpKeys offset.z c] ∧
      getNumKeys (offsetKeyPosition interp tr offset) = getNumKeys tr := by
  have hres : offsetKeyPosition interp tr offset =
      { tr with subTracks :=
          [offTrack interp a offset.x, offTrack interp b offset.y, offTrack interp c offset.z] } := by
    rw [offsetKeyPosition, hdims]
  constructor
  · rw [hres]
    simp only [offTrack_eq_bumpKeys interp offset.x a ha,
      offTrack_eq_bumpKeys interp offset.y b hb, offTrack_eq_bumpKeys interp offset.z c hc]
  · rw [hres, getNumKeys, getNumKeys, hdims]
    simp [totalKeys, offTrack_eq_bumpKeys interp offset.x a ha,
      offTrack_eq_bumpKeys interp offset.y b hb, offTrack_eq_bumpKeys interp offset.z c hc,
      bumpKeys]

/-- Concrete instance of the C7 theorem: offsetting a track with one key per
axis. -/
theorem offsetKeyPosition_spec_witness :
    (offsetKeyPosition (fun _ _ => 0)
          ⟨[[⟨0, 1, false⟩], [⟨0, 2, false⟩], [⟨1, 3, true⟩]], .Position⟩ ⟨10, 20, 30⟩).subTracks =
        [bumpKeys 10 [⟨0, 1, false⟩], bumpKeys 20 [⟨0, 2, false⟩], bumpKeys 30 [⟨1, 3, true⟩]] ∧
      getNumKeys (offsetKeyPosition (fun _ _ => 0)
          ⟨[[⟨0, 1, false⟩], [⟨0, 2, false⟩], [⟨1, 3, true⟩]], .Position⟩ ⟨10, 20, 30⟩) =
        getNumKeys ⟨[[⟨0, 1, false⟩], [⟨0, 2, false⟩], [⟨1, 3, true⟩]], .Position⟩ :=
  offsetKeyPosition_spec (fun _ _ => 0)
    ⟨[[⟨0, 1, false⟩], [⟨0, 2, false⟩], [⟨1, 3, true⟩]], .Position⟩ ⟨10, 20, 30⟩
    [⟨0, 1, false⟩] [⟨0, 2, false⟩] [⟨1, 3, true⟩] rfl (by simp) (by simp) (by simp)

/-- Modelled from the spec: the quaternion value, represented by its
intrinsic-XYZ Euler decomposition in degrees.  `GetValue(Quat)` builds the
quaternion with `CreateRotationXYZ` from the read angles after a
degrees→radians conversion, and `SetValue(Quat)` recovers the angles with
`GetAnglesXYZ` followed by radians→degrees; the two conversions are mutually
inverse, so the rotation is carried faithfully by its Euler-degree triple.
The identity rotation (`SetIdentity`) is the zero triple. -/
structure QuatM where
  x : ℚ
  y : ℚ
  z : ℚ
deriving DecidableEq

/-- The identity rotation. -/
def quatIdentity : QuatM := ⟨0, 0, 0⟩

/-- `CCompoundSplineTrack::GetValue(Quat)`: with 3 dimensions read the three
sub-tracks as XYZ Euler angles in degrees; otherwise (`assert(0)`) set the
output to the identity. -/
def getValueQuat (interp : SubTrack → ℚ → ℚ) (tr : CompoundTrack) (t : ℚ) : QuatM :=
  match tr.subTracks with
  | [a, b, c] => ⟨subGetValue interp a t, subGetValue interp b t, subGetValue interp c t⟩
  | _ => quatIdentity

/-- One axis of `CCompoundSplineTrack::SetValue(Quat)`: for a non-default key
the angle is first passed through `PreferShortestRotPath` against the value
currently stored at that time on that axis (read before overwrite). -/
def axisSetRot (interp : SubTrack → ℚ → ℚ) (st : SubTrack) (t deg : ℚ) (bDefault : Bool) :
    SubTrack :=
  subSetValue st t
    (if bDefault then deg else preferShortestRotPath deg (subGetValue interp st t)) bDefault

/-- `CCompoundSplineTrack::SetValue(Quat)`: with 3 dimensions write the three
Euler-degree components through the rotation-continuity filter; otherwise
(`assert(0)`) perform no write at all. -/
def setValueQuat (interp : SubTrack → ℚ → ℚ) (tr : CompoundTrack) (t : ℚ) (q : QuatM)
    (bDefault : Bool) : CompoundTrack :=
  match tr.subTracks with
  | [a, b, c] =>
    { tr with subTracks :=
        [axisSetRot interp a t q.x bDefault, axisSetRot interp b t q.y bDefault,
          axisSetRot interp c t q.z bDefault] }
  | _ => tr

/-- C10: quaternion dimension-mismatch fallback.  On a compound track whose
dimension count is not 3, `GetValue(Quat)` sets the output to the identity
rotation and `SetValue(Quat)` writes nothing: every sub-track is unchanged. -/
theorem quatValue_dimension_mismatch (interp : SubTrack → ℚ → ℚ) (tr : CompoundTrack)
    (t : ℚ) (q : QuatM) (bb : Bool) (hdim : tr.subTracks.length ≠ 3) :
    getValueQuat interp tr t = quatIdentity ∧ setValueQuat interp tr t q bb = tr := by
  obtain ⟨sts, pt⟩ := tr
  rcases sts with _ | ⟨a, _ | ⟨b, _ | ⟨c, _ | ⟨d, rest⟩⟩⟩⟩
  · exact ⟨rfl, rfl⟩
  · exact ⟨rfl, rfl⟩
  · exact ⟨rfl, rfl⟩
  · simp at hdim
  · exact ⟨rfl, rfl⟩

/-- Concrete instance of the C10 fallback theorem on a 2-dimensional track. -/
theorem quatValue_dimension_mismatch_witness :
    getValueQuat (fun _ _ => 0) ⟨[[⟨0, 1, false⟩], []], .Rotation⟩ 0 = quatIdentity ∧
      setValueQuat (fun _ _ => 0) ⟨[[⟨0, 1, false⟩], []], .Rotation⟩ 0 ⟨1, 2, 3⟩ false =
        ⟨[[⟨0, 1, false⟩], []], .Rotation⟩ :=
  quatValue_dimension_mismatch (fun _ _ => 0) ⟨[[⟨0, 1, false⟩], []], .Rotation⟩ 0 ⟨1, 2, 3⟩
    false (by decide)

theorem length_selectFirstNear (kt : ℚ) (b : Bool) (st : SubTrack) :
    (selectFirstNear kt b st).length = st.length := by
  induction st with
  | nil => rfl
  | cons k ks ih =>
    rw [selectFirstNear]
    by_cases hc : fabsQ (k.time - kt) < 1 / 1000
    · rw [if_pos hc]
      simp
    · rw [if_neg hc]
      simpa using ih

theorem selectFirstNear_getD (kt : ℚ) (b : Bool) (st : SubTrack) (m : ℕ) (hm : m < st.length)
    (dflt : Key) :
    (selectFirstNear kt b st).getD m dflt =
      if fabsQ (subGetKeyTime st m - kt) < 1 / 1000 ∧
          ∀ m' < m, ¬ fabsQ (subGetKeyTime st m' - kt) < 1 / 1000 then
        { st.getD m dflt with selected := b }
      else st.getD m dflt := by
  induction st generalizing m with
  | nil => simp at hm
  | cons k ks ih =>
    by_cases hc : fabsQ (k.time - kt) < 1 / 1000
    · rcases m with _ | m
      · rw [selectFirstNear, if_pos hc, if_pos ⟨by simpa [subGetKeyTime] using hc,
          fun m' hm' => absurd hm' (Nat.not_lt_zero m')⟩]
        simp [List.getD_cons_zero]
      · rw [selectFirstNear, if_pos hc, if_neg ?hcond]
        · simp [List.getD_cons_succ]
        case hcond =>
          rintro ⟨-, hall⟩
          exact hall 0 (Nat.succ_pos m) (by simpa [subGetKeyTime] using hc)
    · have hLHS : selectFirstNear kt b (k :: ks) = k :: selectFirstNear kt b ks := by
        rw [selectFirstNear, if_neg hc]
      rcases m with _ | m
      · rw [hLHS, if_neg ?hcond0]
        · simp [List.getD_cons_zero]
        case hcond0 =>
          rintro ⟨h1, -⟩
          exact hc (by simpa [subGetKeyTime] using h1)
      · have hm' : m < ks.length := by simpa using hm
        have hstep : (k :: selectFirstNear kt b ks).getD (m + 1) dflt =
            (selectFirstNear kt b ks).getD m dflt := by
          simp [List.getD_cons_succ]
        rw [hLHS, hstep, ih m hm']
        by_cases hcnd : fabsQ (subGetKeyTime ks m - kt) < 1 / 1000 ∧
            ∀ m' < m, ¬ fabsQ (subGetKeyTime ks m' - kt) < 1 / 1000
        · rw [if_pos hcnd, if_pos ?hup]
          · simp [subGetKeyTime, List.getD_cons_succ]
          case hup =>
            refine ⟨by simpa [subGetKeyTime, List.getD_cons_succ] using hcnd.1, ?_⟩
            intro m' hm''
            rcases m' with _ | m'
            · simpa [subGetKeyTime, List.getD_cons_zero] using hc
            · simpa [subGetKeyTime, List.getD_cons_succ] using hcnd.2 m' (by omega)
        · rw [if_neg hcnd, if_neg ?hdown]
          · simp [subGetKeyTime, List.getD_cons_succ]
          case hdown =>
            rintro ⟨h1, hall⟩
            exact hcnd ⟨by simpa [subGetKeyTime, List.getD_cons_succ] using h1,
              fun m' hm'' => by
                simpa [subGetKeyTime, List.getD_cons_succ] using hall (m' + 1) (by omega)⟩

/-- C6 amended: `SelectKey(flatIndex, select)` applies the flag, in every
active sub-track, to the first key (lowest local index) whose time lies within
the fixed 0.001 epsilon of the indexed key's time, and changes no other key:
when at most one key per sub-track lies within the epsilon window this is
exactly the set of keys within epsilon of that time. -/
theorem selectKeyFlat_first_within_epsilon (tr : CompoundTrack) (f : ℕ) (b : Bool) (i l : ℕ)
    (hloc : getSubTrackIndex tr.subTracks f = some (i, l)) (j m : ℕ)
    (hj : j < tr.subTracks.length) (hm : m < (tr.subTracks.getD j []).length) :
    (selectKeyFlat tr f b).subTracks.length = tr.subTracks.length ∧
      ((selectKeyFlat tr f b).subTracks.getD j []).length = (tr.subTracks.getD j []).length ∧
      ((selectKeyFlat tr f b).subTracks.getD j []).getD m ⟨0, 0, false⟩ =
        (if fabsQ (subGetKeyTime (tr.subTracks.getD j []) m -
              subGetKeyTime (getST tr i) l) < 1 / 1000 ∧
            ∀ m' < m, ¬ fabsQ (subGetKeyTime (tr.subTracks.getD j []) m' -
              subGetKeyTime (getST tr i) l) < 1 / 1000 then
          { (tr.subTracks.getD j []).getD m ⟨0, 0, false⟩ with selected := b }
        else (tr.subTracks.getD j []).getD m ⟨0, 0, false⟩) := by
  have hsel : (selectKeyFlat tr f b).subTracks =
      tr.subTracks.map (selectFirstNear (subGetKeyTime (getST tr i) l) b) := by
    rw [selectKeyFlat, hloc]
  have hgetj : (selectKeyFlat tr f b).subTracks.getD j [] =
      selectFirstNear (subGetKeyTime (getST tr i) l) b (tr.subTracks.getD j []) := by
    rw [hsel]
    rcases hjs : tr.subTracks[j]? with _ | stj
    · exact absurd (List.getElem?_eq_none_iff.mp hjs) (by omega)
    · simp [List.getD, List.getElem?_map, hjs]
  refine ⟨by rw [hsel]; simp, ?_, ?_⟩
  · rw [hgetj, length_selectFirstNear]
  · rw [hgetj, selectFirstNear_getD _ b _ m hm]

/-- Concrete instance of the C6 amended theorem: selecting from the key at
time 0 applies the flag to the key at time 0 (local index 0). -/
theorem selectKeyFlat_first_within_epsilon_witness :
    (selectKeyFlat ⟨[[⟨0, 1, false⟩, ⟨1 / 2000, 2, false⟩]], .Position⟩ 0 true).subTracks.length =
        (⟨[[⟨0, 1, false⟩, ⟨1 / 2000, 2, false⟩]], .Position⟩ : CompoundTrack).subTracks.length ∧
      ((selectKeyFlat ⟨[[⟨0, 1, false⟩, ⟨1 / 2000, 2, false⟩]], .Position⟩ 0 true).subTracks.getD 0 []).length =
        ((⟨[[⟨0, 1, false⟩, ⟨1 / 2000, 2, false⟩]], .Position⟩ : CompoundTrack).subTracks.getD 0 []).length ∧
      ((selectKeyFlat ⟨[[⟨0, 1, false⟩, ⟨1 / 2000, 2, false⟩]], .Position⟩ 0 true).subTracks.getD 0 []).getD 0 ⟨0, 0, false⟩ =
        (if fabsQ (subGetKeyTime ((⟨[[⟨0, 1, false⟩, ⟨1 / 2000, 2, false⟩]], .Position⟩ : CompoundTrack).subTracks.getD 0 []) 0 -
              subGetKeyTime (getST ⟨[[⟨0, 1, false⟩, ⟨1 / 2000, 2, false⟩]], .Position⟩ 0) 0) < 1 / 1000 ∧
            ∀ m' < 0, ¬ fabsQ (subGetKeyTime ((⟨[[⟨0, 1, false⟩, ⟨1 / 2000, 2, false⟩]], .Position⟩ : CompoundTrack).subTracks.getD 0 []) m' -
              subGetKeyTime (getST ⟨[[⟨0, 1, false⟩, ⟨1 / 2000, 2, false⟩]], .Position⟩ 0) 0) < 1 / 1000 then
          { ((⟨[[⟨0, 1, false⟩, ⟨1 / 2000, 2, false⟩]], .Position⟩ : CompoundTrack).subTracks.getD 0 []).getD 0 ⟨0, 0, false⟩ with selected := true }
        else ((⟨[[⟨0, 1, false⟩, ⟨1 / 2000, 2, false⟩]], .Position⟩ : CompoundTrack).subTracks.getD 0 []).getD 0 ⟨0, 0, false⟩) :=
  selectKeyFlat_first_within_epsilon ⟨[[⟨0, 1, false⟩, ⟨1 / 2000, 2, false⟩]], .Position⟩ 0 true
    0 0 (by decide) 0 0 (by decide) (by decide)

/-- C6 counterexample: `SelectKey` does not apply the flag to every key within
the 0.001 epsilon.  With keys at times 0 and 1/2000 (both within epsilon of
the indexed key's time 0), selecting from flat index 0 leaves the key at
1/2000 unselected: only the first key within epsilon per sub-track is hit. -/
theorem selectKeyFlat_misses_second_near_key :
    fabsQ (subGetKeyTime [⟨0, 1, false⟩, ⟨(1 : ℚ) / 2000, 2, false⟩] 1 -
        getKeyTimeFlat ⟨[[⟨0, 1, false⟩, ⟨1 / 2000, 2, false⟩]], .Position⟩ 0) < 1 / 1000 ∧
      subIsKeySelected
        ((selectKeyFlat ⟨[[⟨0, 1, false⟩, ⟨1 / 2000, 2, false⟩]], .Position⟩ 0 true).subTracks.getD 0 [])
        1 = false := by
  constructor
  · norm_num [subGetKeyTime, getKeyTimeFlat, getSubTrackIndex, getST, fabsQ]
  · norm_num [selectKeyFlat, getSubTrackIndex, getST, subGetKeyTime, selectFirstNear,
      fabsQ, subIsKeySelected]

theorem vec3_add_def (a b : Vec3) : a + b = ⟨a.x + b.x, a.y + b.y, a.z + b.z⟩ := rfl

theorem vec3_sub_def (a b : Vec3) : a - b = ⟨a.x - b.x, a.y - b.y, a.z - b.z⟩ := rfl

theorem vec3_mul_def (a b : Vec3) : a * b = ⟨a.x * b.x, a.y * b.y, a.z * b.z⟩ := rfl

theorem vec3_neg_def (a : Vec3) : -a = ⟨-a.x, -a.y, -a.z⟩ := rfl

theorem vec3_ext (a b : Vec3) (hx : a.x = b.x) (hy : a.y = b.y) (hz : a.z = b.z) : a = b := by
  cases a
  cases b
  simp_all

/-- Modelled from the spec: the operations consumed from the external transform
collaborator (spec section 6): full inverse, point transform, Euler-degrees
decomposition, exact scale extraction. -/
structure XformOps (T : Type) where
  invertFull : T → T
  applyPoint : T → Vec3 → Vec3
  eulerDegrees : T → Vec3
  retrieveScaleExact : T → Vec3

/-- The three sub-tracks of a 3-dimensional compound track. -/
abbrev Tracks3 := SubTrack × SubTrack × SubTrack

/-- The `allTimes` accumulation of `UpdateKeyDataAfterParentChanged`: push each
key time not already collected. -/
def addTimes : List ℚ → SubTrack → List ℚ
  | acc, [] => acc
  | acc, k :: ks => addTimes (if k.time ∈ acc then acc else acc ++ [k.time]) ks

/-- All distinct key times across the three sub-tracks, in first-seen order. -/
def collectTimes3 (s : Tracks3) : List ℚ :=
  addTimes (addTimes (addTimes [] s.1) s.2.1) s.2.2

/-- Read the three sub-track values at a time into one vector. -/
def readVec (interp : SubTrack → ℚ → ℚ) (s : Tracks3) (t : ℚ) : Vec3 :=
  ⟨subGetValue interp s.1 t, subGetValue interp s.2.1 t, subGetValue interp s.2.2 t⟩

/-- Write a vector's components back into the three sub-tracks at a time
(`SetValue(time, value)`: non-default write-through, may create keys). -/
def writeVec (s : Tracks3) (t : ℚ) (v : Vec3) : Tracks3 :=
  (subSetValue s.1 t v.x false, subSetValue s.2.1 t v.y false, subSetValue s.2.2 t v.z false)

/-- The per-time rewrite of `UpdateKeyDataAfterParentChanged` (the `switch` on
the parameter type), with the new parent's inverse transform precomputed:
Position maps the point by the old parent and then by the inverse of the new
parent; Rotation adds the old parent's Euler degrees and then adds the Euler
degrees OF THE INVERSE of the new parent; Scale multiplies componentwise by
the two extracted scales; any other type is asserted unreachable and the
vector is written back as read. -/
def rebaseFn {T : Type} (ops : XformOps T) (pt : AnimParamType) (oldTM newInvTM : T)
    (v : Vec3) : Vec3 :=
  match pt with
  | .Position => ops.applyPoint newInvTM (ops.applyPoint oldTM v)
  | .Rotation => ops.eulerDegrees newInvTM + (ops.eulerDegrees oldTM + v)
  | .Scale => ops.retrieveScaleExact newInvTM * (ops.retrieveScaleExact oldTM * v)
  | .Generic => v

/-- One iteration of the per-time loop: read the three values at the time,
rewrite the vector, write all three components back. -/
def rebaseStep {T : Type} (ops : XformOps T) (interp : SubTrack → ℚ → ℚ)
    (pt : AnimParamType) (oldTM newInvTM : T) (s : Tracks3) (t : ℚ) : Tracks3 :=
  writeVec s t (rebaseFn ops pt oldTM newInvTM (readVec interp s t))

/-- The per-time loop over the collected times. -/
def rebaseLoop {T : Type} (ops : XformOps T) (interp : SubTrack → ℚ → ℚ)
    (pt : AnimParamType) (oldTM newInvTM : T) : List ℚ → Tracks3 → Tracks3
  | [], s => s
  | t :: ts, s =>
    rebaseLoop ops interp pt oldTM newInvTM ts (rebaseStep ops interp pt oldTM newInvTM s t)

/-- `CCompoundSplineTrack::UpdateKeyDataAfterParentChanged` on the three
sub-tracks of a 3-dimensional compound track: collect the distinct key times,
then rewrite each one through the parameter-type transform built from the old
parent transform and the full inverse of the new parent transform. -/
def updateKeyData {T : Type} (ops : XformOps T) (interp : SubTrack → ℚ → ℚ)
    (pt : AnimParamType) (oldParentWorldTM newParentWorldTM : T) (s : Tracks3) : Tracks3 :=
  rebaseLoop ops interp pt oldParentWorldTM (ops.invertFull newParentWorldTM)
    (collectTimes3 s) s

/-- The compound-track wrapper: `AZ_Assert(m_nDimensions == 3, ...)`; tracks of
other dimension counts are not rebased. -/
def updateKeyDataAfterParentChanged {T : Type} (ops : XformOps T)
    (interp : SubTrack → ℚ → ℚ) (tr : CompoundTrack) (oldTM newTM : T) : CompoundTrack :=
  match tr.subTracks with
  | [a, b, c] =>
    { tr with subTracks :=
        [(updateKeyData ops interp tr.nParamType oldTM newTM (a, b, c)).1,
          (updateKeyData ops interp tr.nParamType oldTM newTM (a, b, c)).2.1,
          (updateKeyData ops interp tr.nParamType oldTM newTM (a, b, c)).2.2] }
  | _ => tr

theorem keyAt_eq_some_mem (st : SubTrack) (t : ℚ) (k : Key) (h : keyAt st t = some k) :
    k ∈ st ∧ k.time = t := by
  induction st with
  | nil => simp [keyAt] at h
  | cons k' ks ih =>
    by_cases hk : k'.time = t
    · rw [keyAt, if_pos hk] at h
      obtain rfl : k' = k := by simpa using h
      exact ⟨List.mem_cons_self _ _, hk⟩
    · rw [keyAt, if_neg hk] at h
      obtain ⟨hm, ht⟩ := ih h
      exact ⟨List.mem_cons_of_mem k' hm, ht⟩

theorem subGetValue_of_keyValAt (interp : SubTrack → ℚ → ℚ) (st : SubTrack) (t v : ℚ)
    (h : keyValAt st t = some v) : subGetValue interp st t = v := by
  rcases hk : keyAt st t with _ | k
  · rw [keyValAt, hk] at h
    simp at h
  · rw [keyValAt, hk] at h
    rw [subGetValue, hk]
    simpa using h

theorem mem_addTimes_left (st : SubTrack) (acc : List ℚ) (a : ℚ) (h : a ∈ acc) :
    a ∈ addTimes acc st := by
  induction st generalizing acc with
  | nil => simpa [addTimes] using h
  | cons k ks ih =>
    rw [addTimes]
    by_cases hm : k.time ∈ acc
    · rw [if_pos hm]
      exact ih acc h
    · rw [if_neg hm]
      exact ih (acc ++ [k.time]) (List.mem_append_left _ h)

theorem mem_addTimes_right (st : SubTrack) (acc : List ℚ) (k : Key) (h : k ∈ st) :
    k.time ∈ addTimes acc st := by
  induction st generalizing acc with
  | nil => simp at h
  | cons k' ks ih =>
    rw [addTimes]
    rcases List.mem_cons.mp h with rfl | hm
    · by_cases hin : k.time ∈ acc
      · rw [if_pos hin]
        exact mem_addTimes_left ks acc k.time hin
      · rw [if_neg hin]
        exact mem_addTimes_left ks (acc ++ [k.time]) k.time
          (List.mem_append_right _ (List.mem_singleton.mpr rfl))
    · by_cases hin : k'.time ∈ acc
      · rw [if_pos hin]
        exact ih acc hm
      · rw [if_neg hin]
        exact ih (acc ++ [k'.time]) hm

theorem nodup_addTimes (st : SubTrack) (acc : List ℚ) (h : acc.Nodup) :
    (addTimes acc st).Nodup := by
  induction st generalizing acc with
  | nil => simpa [addTimes] using h
  | cons k ks ih =>
    rw [addTimes]
    by_cases hm : k.time ∈ acc
    · rw [if_pos hm]
      exact ih acc h
    · rw [if_neg hm]
      refine ih (acc ++ [k.time]) ?_
      rw [List.nodup_append]
      exact ⟨h, List.nodup_singleton _, fun a ha hb => hm ((List.mem_singleton.mp hb) ▸ ha)⟩

theorem nodup_collectTimes3 (s : Tracks3) : (collectTimes3 s).Nodup :=
  nodup_addTimes _ _ (nodup_addTimes _ _ (nodup_addTimes _ _ List.nodup_nil))

theorem mem_collectTimes3_of_keyValAt (s : Tracks3) (t : ℚ)
    (h : (∃ v, keyValAt s.1 t = some v) ∨ (∃ v, keyValAt s.2.1 t = some v) ∨
      (∃ v, keyValAt s.2.2 t = some v)) :
    t ∈ collectTimes3 s := by
  have hkey : ∀ (st : SubTrack) (v : ℚ), keyValAt st t = some v → ∃ k ∈ st, k.time = t := by
    intro st v hv
    rcases hk : keyAt st t with _ | k
    · rw [keyValAt, hk] at hv
      simp at hv
    · obtain ⟨hm, ht⟩ := keyAt_eq_some_mem st t k hk
      exact ⟨k, hm, ht⟩
  rcases h with ⟨v, hv⟩ | ⟨v, hv⟩ | ⟨v, hv⟩
  · obtain ⟨k, hm, ht⟩ := hkey _ _ hv
    exact ht ▸ mem_addTimes_left _ _ _ (mem_addTimes_left _ _ _ (mem_addTimes_right _ _ k hm))
  · obtain ⟨k, hm, ht⟩ := hkey _ _ hv
    exact ht ▸ mem_addTimes_left _ _ _ (mem_addTimes_right _ _ k hm)
  · obtain ⟨k, hm, ht⟩ := hkey _ _ hv
    exact ht ▸ mem_addTimes_right _ _ k hm

theorem rebaseLoop_not_mem {T : Type} (ops : XformOps T) (interp : SubTrack → ℚ → ℚ)
    (pt : AnimParamType) (oldTM newInvTM : T) (ts : List ℚ) (t : ℚ) :
    ∀ s : Tracks3, t ∉ ts →
      keyAt (rebaseLoop ops interp pt oldTM newInvTM ts s).1 t = keyAt s.1 t ∧
        keyAt (rebaseLoop ops interp pt oldTM newInvTM ts s).2.1 t = keyAt s.2.1 t ∧
        keyAt (rebaseLoop ops interp pt oldTM newInvTM ts s).2.2 t = keyAt s.2.2 t := by
  induction ts with
  | nil => exact fun s _ => ⟨rfl, rfl, rfl⟩
  | cons t0 ts' ih =>
    intro s hnot
    have hne : t ≠ t0 := fun hc => hnot (hc ▸ List.mem_cons_self _ _)
    have hnot' : t ∉ ts' := fun hc => hnot (List.mem_cons_of_mem _ hc)
    obtain ⟨p1, p2, p3⟩ := ih (rebaseStep ops interp pt oldTM newInvTM s t0) hnot'
    refine ⟨?_, ?_, ?_⟩
    · exact p1.trans (keyAt_subSetValue_other s.1 t0 _ t false hne)
    · exact p2.trans (keyAt_subSetValue_other s.2.1 t0 _ t false hne)
    · exact p3.trans (keyAt_subSetValue_other s.2.2 t0 _ t false hne)

theorem rebaseLoop_writes {T : Type} (ops : XformOps T) (interp : SubTrack → ℚ → ℚ)
    (pt : AnimParamType) (oldTM newInvTM : T) (ts : List ℚ) (t : ℚ) :
    ∀ s : Tracks3, ts.Nodup → t ∈ ts →
      ∃ u : Vec3,
        (keyValAt (rebaseLoop ops interp pt oldTM newInvTM ts s).1 t =
            some (rebaseFn ops pt oldTM newInvTM u).x ∧
          keyValAt (rebaseLoop ops interp pt oldTM newInvTM ts s).2.1 t =
            some (rebaseFn ops pt oldTM newInvTM u).y ∧
          keyValAt (rebaseLoop ops interp pt oldTM newInvTM ts s).2.2 t =
            some (rebaseFn ops pt oldTM newInvTM u).z) ∧
        (∀ v, keyValAt s.1 t = some v → u.x = v) ∧
        (∀ v, keyValAt s.2.1 t = some v → u.y = v) ∧
        (∀ v, keyValAt s.2.2 t = some v → u.z = v) := by
  induction ts with
  | nil =>
    intro s _ ht
    simp at ht
  | cons t0 ts' ih =>
    intro s hnd ht
    rw [List.nodup_cons] at hnd
    by_cases he : t = t0
    · subst he
      refine ⟨readVec interp s t, ?_, ?_, ?_, ?_⟩
      · obtain ⟨p1, p2, p3⟩ := rebaseLoop_not_mem ops interp pt oldTM newInvTM ts' t
          (rebaseStep ops interp pt oldTM newInvTM s t) hnd.1
        refine ⟨?_, ?_, ?_⟩
        · rw [rebaseLoop, keyValAt, p1]
          exact keyValAt_subSetValue_same s.1 t _
        · rw [rebaseLoop, keyValAt, p2]
          exact keyValAt_subSetValue_same s.2.1 t _
        · rw [rebaseLoop, keyValAt, p3]
          exact keyValAt_subSetValue_same s.2.2 t _
      · exact fun v hv => subGetValue_of_keyValAt interp s.1 t v hv
      · exact fun v hv => subGetValue_of_keyValAt interp s.2.1 t v hv
      · exact fun v hv => subGetValue_of_keyValAt interp s.2.2 t v hv
    · have ht' : t ∈ ts' := by
        rcases List.mem_cons.mp ht with hc | hc
        · exact absurd hc he
        · exact hc
      obtain ⟨u, hres, hu1, hu2, hu3⟩ :=
        ih (rebaseStep ops interp pt oldTM newInvTM s t0) hnd.2 ht'
      refine ⟨u, hres, ?_, ?_, ?_⟩
      · intro v hv
        refine hu1 v ?_
        rw [keyValAt]
        simp only [rebaseStep, writeVec]
        rw [keyAt_subSetValue_other s.1 t0 _ t false he]
        exact hv
      · intro v hv
        refine hu2 v ?_
        rw [keyValAt]
        simp only [rebaseStep, writeVec]
        rw [keyAt_subSetValue_other s.2.1 t0 _ t false he]
        exact hv
      · intro v hv
        refine hu3 v ?_
        rw [keyValAt]
        simp only [rebaseStep, writeVec]
        rw [keyAt_subSetValue_other s.2.2 t0 _ t false he]
        exact hv

/-- C3: parent-rebase round-trip.  For a 3-dimensional Position or Scale
compound track and invertible parent world transforms A and B (inverse laws
stated for the collaborator's point transform and exact scale), rebasing from
A to B and then from B to A reproduces every originally stored key value
(exactly, in the rational model of floats). -/
theorem updateKeyData_roundTrip {T : Type} (ops : XformOps T) (interp : SubTrack → ℚ → ℚ)
    (A B : T) (pt : AnimParamType) (hpt : pt = AnimParamType.Position ∨ pt = AnimParamType.Scale)
    (hAinv : ∀ w : Vec3, ops.applyPoint (ops.invertFull A) (ops.applyPoint A w) = w)
    (hBinv : ∀ w : Vec3, ops.applyPoint B (ops.applyPoint (ops.invertFull B) w) = w)
    (hAs : ops.retrieveScaleExact (ops.invertFull A) * ops.retrieveScaleExact A = ⟨1, 1, 1⟩)
    (hBs : ops.retrieveScaleExact (ops.invertFull B) * ops.retrieveScaleExact B = ⟨1, 1, 1⟩)
    (s : Tracks3) (t : ℚ) :
    (∀ v, keyValAt s.1 t = some v →
        keyValAt (updateKeyData ops interp pt B A (updateKeyData ops interp pt A B s)).1 t =
          some v) ∧
      (∀ v, keyValAt s.2.1 t = some v →
        keyValAt (updateKeyData ops interp pt B A (updateKeyData ops interp pt A B s)).2.1 t =
          some v) ∧
      (∀ v, keyValAt s.2.2 t = some v →
        keyValAt (updateKeyData ops interp pt B A (updateKeyData ops interp pt A B s)).2.2 t =
          some v) := by
  have hcomp : ∀ w : Vec3,
      rebaseFn ops pt B (ops.invertFull A) (rebaseFn ops pt A (ops.invertFull B) w) = w := by
    rcases hpt with rfl | rfl
    · intro w
      simp only [rebaseFn]
      rw [hBinv, hAinv]
    · intro w
      have hax : (ops.retrieveScaleExact (ops.invertFull A)).x * (ops.retrieveScaleExact A).x = 1 := by
        simpa [vec3_mul_def] using congrArg Vec3.x hAs
      have hay : (ops.retrieveScaleExact (ops.invertFull A)).y * (ops.retrieveScaleExact A).y = 1 := by
        simpa [vec3_mul_def] using congrArg Vec3.y hAs
      have haz : (ops.retrieveScaleExact (ops.invertFull A)).z * (ops.retrieveScaleExact A).z = 1 := by
        simpa [vec3_mul_def] using congrArg Vec3.z hAs
      have hbx : (ops.retrieveScaleExact (ops.invertFull B)).x * (ops.retrieveScaleExact B).x = 1 := by
        simpa [vec3_mul_def] using congrArg Vec3.x hBs
      have hby : (ops.retrieveScaleExact (ops.invertFull B)).y * (ops.retrieveScaleExact B).y = 1 := by
        simpa [vec3_mul_def] using congrArg Vec3.y hBs
      have hbz : (ops.retrieveScaleExact (ops.invertFull B)).z * (ops.retrieveScaleExact B).z = 1 := by
        simpa [vec3_mul_def] using congrArg Vec3.z hBs
      simp only [rebaseFn, vec3_mul_def]
      refine vec3_ext _ _ ?_ ?_ ?_
      · simpa using by linear_combination (w.x * (ops.retrieveScaleExact (ops.invertFull B)).x *
          (ops.retrieveScaleExact B).x) * hax + w.x * hbx
      · simpa using by linear_combination (w.y * (ops.retrieveScaleExact (ops.invertFull B)).y *
          (ops.retrieveScaleExact B).y) * hay + w.y * hby
      · simpa using by linear_combination (w.z * (ops.retrieveScaleExact (ops.invertFull B)).z *
          (ops.retrieveScaleExact B).z) * haz + w.z * hbz
  have hnd1 := nodup_collectTimes3 s
  refine ⟨?_, ?_, ?_⟩
  · intro v hv
    have ht1 : t ∈ collectTimes3 s := mem_collectTimes3_of_keyValAt s t (Or.inl ⟨v, hv⟩)
    obtain ⟨u1, ⟨q1, q2, q3⟩, hu1, hu2, hu3⟩ :=
      rebaseLoop_writes ops interp pt A (ops.invertFull B) (collectTimes3 s) t s hnd1 ht1
    have ht2 : t ∈ collectTimes3 (updateKeyData ops interp pt A B s) :=
      mem_collectTimes3_of_keyValAt _ t (Or.inl ⟨_, q1⟩)
    obtain ⟨u2, ⟨r1, r2, r3⟩, hw1, hw2, hw3⟩ :=
      rebaseLoop_writes ops interp pt B (ops.invertFull A)
        (collectTimes3 (updateKeyData ops interp pt A B s)) t
        (updateKeyData ops interp pt A B s)
        (nodup_collectTimes3 (updateKeyData ops interp pt A B s)) ht2
    have hu2eq : u2 = rebaseFn ops pt A (ops.invertFull B) u1 :=
      vec3_ext _ _ (hw1 _ q1) (hw2 _ q2) (hw3 _ q3)
    rw [show updateKeyData ops interp pt B A (updateKeyData ops interp pt A B s) =
        rebaseLoop ops interp pt B (ops.invertFull A)
          (collectTimes3 (updateKeyData ops interp pt A B s))
          (updateKeyData ops interp pt A B s) from rfl, r1, hu2eq, hcomp u1, hu1 v hv]
  · intro v hv
    have ht1 : t ∈ collectTimes3 s :=
      mem_collectTimes3_of_keyValAt s t (Or.inr (Or.inl ⟨v, hv⟩))
    obtain ⟨u1, ⟨q1, q2, q3⟩, hu1, hu2, hu3⟩ :=
      rebaseLoop_writes ops interp pt A (ops.invertFull B) (collectTimes3 s) t s hnd1 ht1
    have ht2 : t ∈ collectTimes3 (updateKeyData ops interp pt A B s) :=
      mem_collectTimes3_of_keyValAt _ t (Or.inr (Or.inl ⟨_, q2⟩))
    obtain ⟨u2, ⟨r1, r2, r3⟩, hw1, hw2, hw3⟩ :=
      rebaseLoop_writes ops interp pt B (ops.invertFull A)
        (collectTimes3 (updateKeyData ops interp pt A B s)) t
        (updateKeyData ops interp pt A B s)
        (nodup_collectTimes3 (updateKeyData ops interp pt A B s)) ht2
    have hu2eq : u2 = rebaseFn ops pt A (ops.invertFull B) u1 :=
      vec3_ext _ _ (hw1 _ q1) (hw2 _ q2) (hw3 _ q3)
    rw [show updateKeyData ops interp pt B A (updateKeyData ops interp pt A B s) =
        rebaseLoop ops interp pt B (ops.invertFull A)
          (collectTimes3 (updateKeyData ops interp pt A B s))
          (updateKeyData ops interp pt A B s) from rfl, r2, hu2eq, hcomp u1, hu2 v hv]
  · intro v hv
    have ht1 : t ∈ collectTimes3 s :=
      mem_collectTimes3_of_keyValAt s t (Or.inr (Or.inr ⟨v, hv⟩))
    obtain ⟨u1, ⟨q1, q2, q3⟩, hu1, hu2, hu3⟩ :=
      rebaseLoop_writes ops interp pt A (ops.invertFull B) (collectTimes3 s) t s hnd1 ht1
    have ht2 : t ∈ collectTimes3 (updateKeyData ops interp pt A B s) :=
      mem_collectTimes3_of_keyValAt _ t (Or.inr (Or.inr ⟨_, q3⟩))
    obtain ⟨u2, ⟨r1, r2, r3⟩, hw1, hw2, hw3⟩ :=
      rebaseLoop_writes ops interp pt B (ops.invertFull A)
        (collectTimes3 (updateKeyData ops interp pt A B s)) t
        (updateKeyData ops interp pt A B s)
        (nodup_collectTimes3 (updateKeyData ops interp pt A B s)) ht2
    have hu2eq : u2 = rebaseFn ops pt A (ops.invertFull B) u1 :=
      vec3_ext _ _ (hw1 _ q1) (hw2 _ q2) (hw3 _ q3)
    rw [show updateKeyData ops interp pt B A (updateKeyData ops interp pt A B s) =
        rebaseLoop ops interp pt B (ops.invertFull A)
          (collectTimes3 (updateKeyData ops interp pt A B s))
          (updateKeyData ops interp pt A B s) from rfl, r3, hu2eq, hcomp u1, hu3 v hv]

/-- Modelled from the spec: a concrete instantiation of the transform
collaborator, for exercising the rebase on explicit inputs: a diagonal affine
map (componentwise scale plus translation) that also records its own
Euler-degree decomposition and its inverse's.  For the counterexample below,
the recorded decompositions are those of a real rotation under the XYZ Euler
convention the file assumes. -/
structure ModelXform where
  scale : Vec3
  trans : Vec3
  euler : Vec3
  eulerInv : Vec3
deriving DecidableEq

/-- Componentwise reciprocal. -/
def vecRecip (v : Vec3) : Vec3 := ⟨1 / v.x, 1 / v.y, 1 / v.z⟩

/-- The transform collaborator's operations on the concrete model. -/
def modelOps : XformOps ModelXform where
  invertFull m := ⟨vecRecip m.scale, -(vecRecip m.scale * m.trans), m.eulerInv, m.euler⟩
  applyPoint m v := m.scale * v + m.trans
  eulerDegrees m := m.euler
  retrieveScaleExact m := m.scale

/-- Concrete instance of the C3 round-trip theorem: a Position track with one
key per axis, scale-2 / scale-4 affine parents. -/
theorem updateKeyData_roundTrip_witness :
    (∀ v, keyValAt (([⟨0, 8, false⟩], [⟨0, 9, false⟩], [⟨1, 10, false⟩]) : Tracks3).1 0 = some v →
        keyValAt (updateKeyData modelOps (fun _ _ => 0) AnimParamType.Position
          ⟨⟨4, 4, 4⟩, ⟨5, 6, 7⟩, ⟨0, 0, 0⟩, ⟨0, 0, 0⟩⟩ ⟨⟨2, 2, 2⟩, ⟨1, 2, 3⟩, ⟨0, 0, 0⟩, ⟨0, 0, 0⟩⟩
          (updateKeyData modelOps (fun _ _ => 0) AnimParamType.Position
            ⟨⟨2, 2, 2⟩, ⟨1, 2, 3⟩, ⟨0, 0, 0⟩, ⟨0, 0, 0⟩⟩ ⟨⟨4, 4, 4⟩, ⟨5, 6, 7⟩, ⟨0, 0, 0⟩, ⟨0, 0, 0⟩⟩
            ([⟨0, 8, false⟩], [⟨0, 9, false⟩], [⟨1, 10, false⟩]))).1 0 = some v) ∧
      (∀ v, keyValAt (([⟨0, 8, false⟩], [⟨0, 9, false⟩], [⟨1, 10, false⟩]) : Tracks3).2.1 0 = some v →
        keyValAt (updateKeyData modelOps (fun _ _ => 0) AnimParamType.Position
          ⟨⟨4, 4, 4⟩, ⟨5, 6, 7⟩, ⟨0, 0, 0⟩, ⟨0, 0, 0⟩⟩ ⟨⟨2, 2, 2⟩, ⟨1, 2, 3⟩, ⟨0, 0, 0⟩, ⟨0, 0, 0⟩⟩
          (updateKeyData modelOps (fun _ _ => 0) AnimParamType.Position
            ⟨⟨2, 2, 2⟩, ⟨1, 2, 3⟩, ⟨0, 0, 0⟩, ⟨0, 0, 0⟩⟩ ⟨⟨4, 4, 4⟩, ⟨5, 6, 7⟩, ⟨0, 0, 0⟩, ⟨0, 0, 0⟩⟩
            ([⟨0, 8, false⟩], [⟨0, 9, false⟩], [⟨1, 10, false⟩]))).2.1 0 = some v) ∧
      (∀ v, keyValAt (([⟨0, 8, false⟩], [⟨0, 9, false⟩], [⟨1, 10, false⟩]) : Tracks3).2.2 0 = some v →
        keyValAt (updateKeyData modelOps (fun _ _ => 0) AnimParamType.Position
          ⟨⟨4, 4, 4⟩, ⟨5, 6, 7⟩, ⟨0, 0, 0⟩, ⟨0, 0, 0⟩⟩ ⟨⟨2, 2, 2⟩, ⟨1, 2, 3⟩, ⟨0, 0, 0⟩, ⟨0, 0, 0⟩⟩
          (updateKeyData modelOps (fun _ _ => 0) AnimParamType.Position
            ⟨⟨2, 2, 2⟩, ⟨1, 2, 3⟩, ⟨0, 0, 0⟩, ⟨0, 0, 0⟩⟩ ⟨⟨4, 4, 4⟩, ⟨5, 6, 7⟩, ⟨0, 0, 0⟩, ⟨0, 0, 0⟩⟩
            ([⟨0, 8, false⟩], [⟨0, 9, false⟩], [⟨1, 10, false⟩]))).2.2 0 = some v) :=
  updateKeyData_roundTrip modelOps (fun _ _ => 0)
    ⟨⟨2, 2, 2⟩, ⟨1, 2, 3⟩, ⟨0, 0, 0⟩, ⟨0, 0, 0⟩⟩ ⟨⟨4, 4, 4⟩, ⟨5, 6, 7⟩, ⟨0, 0, 0⟩, ⟨0, 0, 0⟩⟩
    AnimParamType.Position (Or.inl rfl)
    (by
      intro w
      refine vec3_ext _ _ ?_ ?_ ?_ <;>
        simp [modelOps, vecRecip, vec3_mul_def, vec3_add_def, vec3_neg_def] <;> ring)
    (by
      intro w
      refine vec3_ext _ _ ?_ ?_ ?_ <;>
        simp [modelOps, vecRecip, vec3_mul_def, vec3_add_def, vec3_neg_def] <;> ring)
    (by
      refine vec3_ext _ _ ?_ ?_ ?_ <;>
        simp [modelOps, vecRecip, vec3_mul_def])
    (by
      refine vec3_ext _ _ ?_ ?_ ?_ <;>
        simp [modelOps, vecRecip, vec3_mul_def])
    ([⟨0, 8, false⟩], [⟨0, 9, false⟩], [⟨1, 10, false⟩]) 0

/-- C2 amended: the Rotation case of the parent rebase rewrites each key time
at which all three sub-tracks hold keys to
`eulerDegrees(inverse(newParentTransform)) + world`, where
`world = eulerDegrees(oldParentTransform) + local` and `local` is the stored
vector at that time before the rewrite.  (This equals the claimed
`world − eulerDegrees(newParentTransform)` only when the Euler decomposition
of the inverse transform is the negated decomposition, which fails for
general rotations — see the counterexample.) -/
theorem updateKeyData_rotation_rewrite {T : Type} (ops : XformOps T)
    (interp : SubTrack → ℚ → ℚ) (A B : T) (s : Tracks3) (t : ℚ) (v1 v2 v3 : ℚ)
    (h1 : keyValAt s.1 t = some v1) (h2 : keyValAt s.2.1 t = some v2)
    (h3 : keyValAt s.2.2 t = some v3) :
    keyValAt (updateKeyData ops interp AnimParamType.Rotation A B s).1 t =
        some ((ops.eulerDegrees (ops.invertFull B) +
          (ops.eulerDegrees A + ⟨v1, v2, v3⟩)).x) ∧
      keyValAt (updateKeyData ops interp AnimParamType.Rotation A B s).2.1 t =
        some ((ops.eulerDegrees (ops.invertFull B) +
          (ops.eulerDegrees A + ⟨v1, v2, v3⟩)).y) ∧
      keyValAt (updateKeyData ops interp AnimParamType.Rotation A B s).2.2 t =
        some ((ops.eulerDegrees (ops.invertFull B) +
          (ops.eulerDegrees A + ⟨v1, v2, v3⟩)).z) := by
  have ht : t ∈ collectTimes3 s := mem_collectTimes3_of_keyValAt s t (Or.inl ⟨v1, h1⟩)
  obtain ⟨u, ⟨q1, q2, q3⟩, hu1, hu2, hu3⟩ :=
    rebaseLoop_writes ops interp AnimParamType.Rotation A (ops.invertFull B)
      (collectTimes3 s) t s (nodup_collectTimes3 s) ht
  have hu : u = ⟨v1, v2, v3⟩ := vec3_ext _ _ (hu1 v1 h1) (hu2 v2 h2) (hu3 v3 h3)
  rw [hu] at q1 q2 q3
  exact ⟨q1, q2, q3⟩

/-- Concrete instance of the C2 amended theorem: identity parents leave a key
vector unchanged (the spec's identity-rebase scenario). -/
theorem updateKeyData_rotation_rewrite_witness :
    keyValAt (updateKeyData modelOps (fun _ _ => 0) AnimParamType.Rotation
        ⟨⟨1, 1, 1⟩, ⟨0, 0, 0⟩, ⟨0, 0, 0⟩, ⟨0, 0, 0⟩⟩ ⟨⟨1, 1, 1⟩, ⟨0, 0, 0⟩, ⟨0, 0, 0⟩, ⟨0, 0, 0⟩⟩
        ([⟨0, 0, false⟩], [⟨0, 0, false⟩], [⟨0, 350, false⟩])).1 0 =
      some ((modelOps.eulerDegrees
          (modelOps.invertFull ⟨⟨1, 1, 1⟩, ⟨0, 0, 0⟩, ⟨0, 0, 0⟩, ⟨0, 0, 0⟩⟩) +
        (modelOps.eulerDegrees ⟨⟨1, 1, 1⟩, ⟨0, 0, 0⟩, ⟨0, 0, 0⟩, ⟨0, 0, 0⟩⟩ +
          ⟨0, 0, 350⟩)).x) ∧
      keyValAt (updateKeyData modelOps (fun _ _ => 0) AnimParamType.Rotation
        ⟨⟨1, 1, 1⟩, ⟨0, 0, 0⟩, ⟨0, 0, 0⟩, ⟨0, 0, 0⟩⟩ ⟨⟨1, 1, 1⟩, ⟨0, 0, 0⟩, ⟨0, 0, 0⟩, ⟨0, 0, 0⟩⟩
        ([⟨0, 0, false⟩], [⟨0, 0, false⟩], [⟨0, 350, false⟩])).2.1 0 =
      some ((modelOps.eulerDegrees
          (modelOps.invertFull ⟨⟨1, 1, 1⟩, ⟨0, 0, 0⟩, ⟨0, 0, 0⟩, ⟨0, 0, 0⟩⟩) +
        (modelOps.eulerDegrees ⟨⟨1, 1, 1⟩, ⟨0, 0, 0⟩, ⟨0, 0, 0⟩, ⟨0, 0, 0⟩⟩ +
          ⟨0, 0, 350⟩)).y) ∧
      keyValAt (updateKeyData modelOps (fun _ _ => 0) AnimParamType.Rotation
        ⟨⟨1, 1, 1⟩, ⟨0, 0, 0⟩, ⟨0, 0, 0⟩, ⟨0, 0, 0⟩⟩ ⟨⟨1, 1, 1⟩, ⟨0, 0, 0⟩, ⟨0, 0, 0⟩, ⟨0, 0, 0⟩⟩
        ([⟨0, 0, false⟩], [⟨0, 0, false⟩], [⟨0, 350, false⟩])).2.2 0 =
      some ((modelOps.eulerDegrees
          (modelOps.invertFull ⟨⟨1, 1, 1⟩, ⟨0, 0, 0⟩, ⟨0, 0, 0⟩, ⟨0, 0, 0⟩⟩) +
        (modelOps.eulerDegrees ⟨⟨1, 1, 1⟩, ⟨0, 0, 0⟩, ⟨0, 0, 0⟩, ⟨0, 0, 0⟩⟩ +
          ⟨0, 0, 350⟩)).z) :=
  updateKeyData_rotation_rewrite modelOps (fun _ _ => 0)
    ⟨⟨1, 1, 1⟩, ⟨0, 0, 0⟩, ⟨0, 0, 0⟩, ⟨0, 0, 0⟩⟩ ⟨⟨1, 1, 1⟩, ⟨0, 0, 0⟩, ⟨0, 0, 0⟩, ⟨0, 0, 0⟩⟩
    ([⟨0, 0, false⟩], [⟨0, 0, false⟩], [⟨0, 350, false⟩]) 0 0 0 350
    (by norm_num [keyValAt, keyAt]) (by norm_num [keyValAt, keyAt])
    (by norm_num [keyValAt, keyAt])

/-- C2 counterexample: the Rotation rebase does not write
`world − eulerDegrees(newParentTransform)`.  Take the identity old parent and
a new parent whose rotation is Rx(90°)·Ry(90°): under the XYZ Euler
convention the file assumes, that transform decomposes to (90, 90, 0) while
its inverse decomposes to (-90, 0, -90) — not the negation (-90, -90, 0).
With a single key vector (0, 0, 0), `world = (0, 0, 0)`; the claim's formula
predicts y-component -90, but the code adds the Euler degrees of the INVERSE
of the new parent and stores y-component 0. -/
theorem updateKeyData_rotation_claim_counterexample :
    keyValAt (updateKeyData modelOps (fun _ _ => 0) AnimParamType.Rotation
        ⟨⟨1, 1, 1⟩, ⟨0, 0, 0⟩, ⟨0, 0, 0⟩, ⟨0, 0, 0⟩⟩
        ⟨⟨1, 1, 1⟩, ⟨0, 0, 0⟩, ⟨90, 90, 0⟩, ⟨-90, 0, -90⟩⟩
        ([⟨0, 0, false⟩], [⟨0, 0, false⟩], [⟨0, 0, false⟩])).2.1 0 = some 0 ∧
      ((modelOps.eulerDegrees ⟨⟨1, 1, 1⟩, ⟨0, 0, 0⟩, ⟨0, 0, 0⟩, ⟨0, 0, 0⟩⟩ + ⟨0, 0, 0⟩) -
          modelOps.eulerDegrees ⟨⟨1, 1, 1⟩, ⟨0, 0, 0⟩, ⟨90, 90, 0⟩, ⟨-90, 0, -90⟩⟩).y = -90 ∧
      some (0 : ℚ) ≠ some (-90 : ℚ) := by
  refine ⟨?_, ?_, ?_⟩
  · norm_num [updateKeyData, collectTimes3, addTimes, rebaseLoop, rebaseStep, writeVec,
      readVec, rebaseFn, modelOps, vecRecip, vec3_add_def, vec3_mul_def, vec3_neg_def,
      subGetValue, subSetValue, keyAt, hasKeyAt, replaceVal, insertKey, keyValAt]
  · norm_num [modelOps, vec3_add_def, vec3_sub_def]
  · norm_num

/-- The inner scan of `CCompoundSplineTrack::NextKeyByTime`: the first key of
the sub-track with time strictly greater than the given time (the C++ breaks
at the first such key), with its local index. -/
def firstAfter (time : ℚ) : SubTrack → Option (ℕ × ℚ)
  | [] => none
  | k :: ks =>
    if time < k.time then some (0, k.time)
    else (firstAfter time ks).map (fun p => (p.1 + 1, p.2))

/-- Strictly earlier than the best-so-far time (`FLT_MAX` modelled as none). -/
def optLt (t : ℚ) : Option ℚ → Bool
  | none => true
  | some x => decide (t < x)

/-- The sub-track loop of `NextKeyByTime`: running flat count, best flat index
so far (-1 when none) and its time. -/
def nextLoop (time : ℚ) : List SubTrack → ℕ → Int → Option ℚ → Int
  | [], _, result, _ => result
  | st :: rest, count, result, timeNext =>
    match firstAfter time st with
    | some (k, t) =>
      if optLt t timeNext then
        nextLoop time rest (count + st.length) (Int.ofNat (count + k)) (some t)
      else nextLoop time rest (count + st.length) result timeNext
    | none => nextLoop time rest (count + st.length) result timeNext

/-- `CCompoundSplineTrack::NextKeyByTime(key)`: look up the key's time, then
scan every sub-track for its first strictly later key, keeping the earliest
such time (earlier sub-tracks win ties through the strict comparison); -1 when
no sub-track has a later key. -/
def nextKeyByTime (tr : CompoundTrack) (f : ℕ) : Int :=
  nextLoop (getKeyTimeFlat tr f) tr.subTracks 0 (-1) none

/-- All keys of the active sub-tracks in flat order. -/
def catKeys : List SubTrack → List Key
  | [] => []
  | st :: rest => st ++ catKeys rest

/-- The smallest key time strictly greater than a given time, if any. -/
def minTimeAfter (time : ℚ) : List Key → Option ℚ
  | [] => none
  | k :: ks =>
    match minTimeAfter time ks with
    | none => if time < k.time then some k.time else none
    | some m => if time < k.time then some (min k.time m) else some m

/-- The C5 claim's description of `NextKeyByTime`, written from its words: the
flat index of the key with the smallest time strictly greater than the given
time — the first key in flat (sub-track, then local) order holding that
minimum, so ties go to the lower sub-track index — and -1 ("none") when no
key has a later time. -/
def claimedNextKeyByTime (tr : CompoundTrack) (time : ℚ) : Int :=
  match minTimeAfter time (catKeys tr.subTracks) with
  | none => -1
  | some m => Int.ofNat ((catKeys tr.subTracks).findIdx (fun k => k.time == m))

/-- Merge of two optional minima. -/
def mergeMin : Option ℚ → Option ℚ → Option ℚ
  | none, b => b
  | some a, none => some a
  | some a, some b => some (min a b)

theorem minTimeAfter_append (time : ℚ) (xs ys : List Key) :
    minTimeAfter time (xs ++ ys) =
      mergeMin (minTimeAfter time xs) (minTimeAfter time ys) := by
  induction xs with
  | nil =>
    rcases hy : minTimeAfter time ys with _ | m <;> simp [minTimeAfter, mergeMin, hy]
  | cons k xs ih =>
    rw [List.cons_append, minTimeAfter, ih, minTimeAfter]
    rcases hx : minTimeAfter time xs with _ | a <;>
      rcases hy : minTimeAfter time ys with _ | b <;>
        by_cases hk : time < k.time <;>
          simp [mergeMin, hk, min_assoc]

theorem minTimeAfter_eq_none_iff (time : ℚ) (ks : List Key) :
    minTimeAfter time ks = none ↔ ∀ k ∈ ks, ¬ time < k.time := by
  induction ks with
  | nil => simp [minTimeAfter]
  | cons k ks ih =>
    constructor
    · intro h x hx
      rw [minTimeAfter] at h
      rcases hk : minTimeAfter time ks with _ | m <;> simp only [hk] at h
      · by_cases hc : time < k.time
        · rw [if_pos hc] at h
          exact Option.noConfusion h
        · rcases List.mem_cons.mp hx with rfl | hxs
          · exact hc
          · exact (ih.mp hk) x hxs
      · by_cases hc : time < k.time
        · rw [if_pos hc] at h
          exact Option.noConfusion h
        · rw [if_neg hc] at h
          exact Option.noConfusion h
    · intro h
      have hks : minTimeAfter time ks = none :=
        ih.mpr fun x hx => h x (List.mem_cons_of_mem _ hx)
      have hc : ¬ time < k.time := h k (List.mem_cons_self _ _)
      rw [minTimeAfter]
      simp only [hks]
      rw [if_neg hc]

theorem minTimeAfter_gt (time : ℚ) (ks : List Key) :
    ∀ m : ℚ, minTimeAfter time ks = some m → time < m ∧ ∃ k ∈ ks, k.time = m := by
  induction ks with
  | nil =>
    intro m h
    simp [minTimeAfter] at h
  | cons k ks ih =>
    intro m h
    rw [minTimeAfter] at h
    rcases hk : minTimeAfter time ks with _ | m' <;> simp only [hk] at h
    · by_cases hc : time < k.time
      · rw [if_pos hc] at h
        obtain rfl : k.time = m := by simpa using h
        exact ⟨hc, k, List.mem_cons_self _ _, rfl⟩
      · rw [if_neg hc] at h
        exact Option.noConfusion h
    · obtain ⟨ht', k', hk', he⟩ := ih m' hk
      by_cases hc : time < k.time
      · rw [if_pos hc] at h
        obtain rfl : min k.time m' = m := by simpa using h
        rcases le_total k.time m' with hle | hle
        · rw [min_eq_left hle]
          exact ⟨hc, k, List.mem_cons_self _ _, rfl⟩
        · rw [min_eq_right hle]
          exact ⟨ht', k', List.mem_cons_of_mem _ hk', he⟩
      · rw [if_neg hc] at h
        obtain rfl : m' = m := by simpa using h
        exact ⟨ht', k', List.mem_cons_of_mem _ hk', he⟩

theorem minTimeAfter_min (time : ℚ) (ks : List Key) :
    ∀ m : ℚ, minTimeAfter time ks = some m → ∀ k ∈ ks, time < k.time → m ≤ k.time := by
  induction ks with
  | nil =>
    intro m h
    simp [minTimeAfter] at h
  | cons k ks ih =>
    intro m h x hx htx
    rw [minTimeAfter] at h
    rcases hk : minTimeAfter time ks with _ | m' <;> simp only [hk] at h
    · by_cases hc : time < k.time
      · rw [if_pos hc] at h
        obtain rfl : k.time = m := by simpa using h
        rcases List.mem_cons.mp hx with rfl | hxs
        · exact le_refl _
        · exfalso
          rw [minTimeAfter_eq_none_iff] at hk
          exact (hk x hxs) htx
      · rw [if_neg hc] at h
        exact Option.noConfusion h
    · by_cases hc : time < k.time
      · rw [if_pos hc] at h
        obtain rfl : min k.time m' = m := by simpa using h
        rcases List.mem_cons.mp hx with rfl | hxs
        · exact min_le_left _ _
        · exact le_trans (min_le_right _ _) (ih m' hk x hxs htx)
      · rw [if_neg hc] at h
        obtain rfl : m' = m := by simpa using h
        rcases List.mem_cons.mp hx with rfl | hxs
        · exact absurd htx hc
        · exact ih m' hk x hxs htx

theorem firstAfter_none_prop (time : ℚ) (st : SubTrack) (h : firstAfter time st = none) :
    ∀ x ∈ st, ¬ time < x.time := by
  induction st with
  | nil =>
    intro x hx
    simp at hx
  | cons k ks ih =>
    intro x hx
    rw [firstAfter] at h
    by_cases hc : time < k.time
    · rw [if_pos hc] at h
      exact Option.noConfusion h
    · rw [if_neg hc] at h
      rcases List.mem_cons.mp hx with rfl | hxs
      · exact hc
      · rw [Option.map_eq_none'] at h
        exact ih h x hxs

theorem firstAfter_some_mem (time : ℚ) (st : SubTrack) :
    ∀ k t, firstAfter time st = some (k, t) → time < t ∧ ∃ x ∈ st, x.time = t := by
  induction st with
  | nil =>
    intro k t h
    simp [firstAfter] at h
  | cons k0 ks ih =>
    intro k t h
    rw [firstAfter] at h
    by_cases hc : time < k0.time
    · rw [if_pos hc] at h
      obtain ⟨rfl, rfl⟩ : 0 = k ∧ k0.time = t := by simpa using h
      exact ⟨hc, k0, List.mem_cons_self _ _, rfl⟩
    · rw [if_neg hc] at h
      rcases hf : firstAfter time ks with _ | ⟨k', t'⟩ <;> rw [hf] at h
      · exact Option.noConfusion h
      · obtain ⟨rfl, rfl⟩ : k' + 1 = k ∧ t' = t := by simpa using h
        obtain ⟨hlt, x, hx, hxt⟩ := ih k' t' hf
        exact ⟨hlt, x, List.mem_cons_of_mem _ hx, hxt⟩

theorem firstAfter_some_sorted (time : ℚ) (st : SubTrack)
    (hs : List.Pairwise (fun a b => a.time ≤ b.time) st) :
    ∀ k t, firstAfter time st = some (k, t) →
      minTimeAfter time st = some t ∧ st.findIdx (fun x => x.time == t) = k := by
  induction st with
  | nil =>
    intro k t h
    simp [firstAfter] at h
  | cons k0 ks ih =>
    intro k t h
    rw [List.pairwise_cons] at hs
    rw [firstAfter] at h
    by_cases hc : time < k0.time
    · rw [if_pos hc] at h
      obtain ⟨rfl, rfl⟩ : 0 = k ∧ k0.time = t := by simpa using h
      constructor
      · rw [minTimeAfter]
        rcases hm : minTimeAfter time ks with _ | m <;> simp only [hm]
        · rw [if_pos hc]
        · rw [if_pos hc]
          have hle : k0.time ≤ m := by
            obtain ⟨-, x, hx, hxe⟩ := minTimeAfter_gt time ks m hm
            exact hxe ▸ hs.1 x hx
          rw [min_eq_left hle]
      · simp [List.findIdx_cons]
    · rw [if_neg hc] at h
      rcases hf : firstAfter time ks with _ | ⟨k', t'⟩ <;> rw [hf] at h
      · exact Option.noConfusion h
      · obtain ⟨rfl, rfl⟩ : k' + 1 = k ∧ t' = t := by simpa using h
        obtain ⟨hmin, hidx⟩ := ih hs.2 k' t' hf
        have htt' : time < t' := (minTimeAfter_gt time ks t' hmin).1
        constructor
        · rw [minTimeAfter]
          simp only [hmin]
          rw [if_neg hc]
        · have hne : (k0.time == t') = false := by
            have h1 : k0.time ≤ time := le_of_not_lt hc
            have h2 : k0.time ≠ t' := ne_of_lt (lt_of_le_of_lt h1 htt')
            simpa using h2
          simp [List.findIdx_cons, hne, hidx]

theorem findIdx_append_of_mem (p : Key → Bool) (xs ys : List Key) (x : Key)
    (hx : x ∈ xs) (hp : p x = true) :
    (xs ++ ys).findIdx p = xs.findIdx p := by
  induction xs with
  | nil => simp at hx
  | cons a xs ih =>
    rcases hb : p a with _ | _
    · rcases List.mem_cons.mp hx with rfl | hxs
      · rw [hb] at hp
        exact Bool.noConfusion hp
      · simp [List.findIdx_cons, hb, ih hxs]
    · simp [List.findIdx_cons, hb]

theorem findIdx_append_of_none (p : Key → Bool) (xs ys : List Key)
    (hall : ∀ x ∈ xs, p x = false) :
    (xs ++ ys).findIdx p = xs.length + ys.findIdx p := by
  induction xs with
  | nil => simp
  | cons a xs ih =>
    have ha : p a = false := hall a (List.mem_cons_self _ _)
    have htail := ih (fun x hx => hall x (List.mem_cons_of_mem _ hx))
    simp [List.findIdx_cons, ha, htail]
    omega

theorem nextLoop_char_none (time : ℚ) (sts : List SubTrack)
    (h : minTimeAfter time (catKeys sts) = none) :
    ∀ (count : ℕ) (result : Int) (timeNext : Option ℚ),
      nextLoop time sts count result timeNext = result := by
  induction sts with
  | nil =>
    intro count result timeNext
    rfl
  | cons st rest ih =>
    intro count result timeNext
    rw [catKeys, minTimeAfter_append] at h
    rcases h1 : minTimeAfter time st with _ | a <;> rw [h1] at h
    · rcases h2 : minTimeAfter time (catKeys rest) with _ | b <;> rw [h2] at h
      · have hfa : firstAfter time st = none := by
          rcases hf : firstAfter time st with _ | ⟨k, t⟩
          · rfl
          · exfalso
            obtain ⟨hlt, x, hx, hxt⟩ := firstAfter_some_mem time st k t hf
            rw [minTimeAfter_eq_none_iff] at h1
            exact (h1 x hx) (hxt ▸ hlt)
        rw [nextLoop]
        simp only [hfa]
        exact ih h2 _ _ _
      · simp [mergeMin] at h
    · rcases h2 : minTimeAfter time (catKeys rest) with _ | b <;> rw [h2] at h <;>
        simp [mergeMin] at h

theorem nextLoop_char_some (time : ℚ) (sts : List SubTrack)
    (hs : ∀ st ∈ sts, List.Pairwise (fun a b => a.time ≤ b.time) st) :
    ∀ m : ℚ, minTimeAfter time (catKeys sts) = some m →
      ∀ (count : ℕ) (result : Int) (timeNext : Option ℚ),
        nextLoop time sts count result timeNext =
          if optLt m timeNext then
            Int.ofNat (count + (catKeys sts).findIdx (fun x => x.time == m))
          else result := by
  induction sts with
  | nil =>
    intro m h
    simp [catKeys, minTimeAfter] at h
  | cons st rest ih =>
    intro m h count result timeNext
    have hsrest : ∀ st' ∈ rest, List.Pairwise (fun a b => a.time ≤ b.time) st' :=
      fun st' h' => hs st' (List.mem_cons_of_mem _ h')
    rw [catKeys, minTimeAfter_append] at h
    rw [nextLoop]
    rcases hfa : firstAfter time st with _ | ⟨k, t⟩
    · have h1 : minTimeAfter time st = none := by
        rw [minTimeAfter_eq_none_iff]
        exact firstAfter_none_prop time st hfa
      rw [h1] at h
      have h2 : minTimeAfter time (catKeys rest) = some m := by simpa [mergeMin] using h
      have hgt := minTimeAfter_gt time (catKeys rest) m h2
      simp only []
      rw [ih hsrest m h2 (count + st.length) result timeNext]
      have hnost : ∀ x ∈ st, ((fun x => x.time == m) x) = false := by
        intro x hx
        have hnlt := firstAfter_none_prop time st hfa x hx
        have : x.time ≠ m := fun hc => hnlt (hc ▸ hgt.1)
        simpa using this
      rw [show catKeys (st :: rest) = st ++ catKeys rest from rfl,
        findIdx_append_of_none _ st (catKeys rest) hnost]
      by_cases hc : optLt m timeNext = true
      · rw [if_pos hc, if_pos hc]
        simp [Nat.add_assoc]
      · rw [if_neg hc, if_neg hc]
    · obtain ⟨hminst, hidxst⟩ := firstAfter_some_sorted time st
        (hs st (List.mem_cons_self _ _)) k t hfa
      obtain ⟨htt, x0, hx0, hx0t⟩ := minTimeAfter_gt time st t hminst
      rw [hminst] at h
      simp only [hfa]
      rcases h2 : minTimeAfter time (catKeys rest) with _ | mr <;> rw [h2] at h
      · obtain rfl : t = m := by simpa [mergeMin] using h
        have hloopr : ∀ (c : ℕ) (res : Int) (tn : Option ℚ),
            nextLoop time rest c res tn = res := nextLoop_char_none time rest h2
        by_cases hc : optLt t timeNext = true
        · rw [if_pos hc, hloopr, if_pos hc,
            show catKeys (st :: rest) = st ++ catKeys rest from rfl,
            findIdx_append_of_mem _ st (catKeys rest) x0 hx0 (by simpa using hx0t), hidxst]
        · rw [if_neg hc, hloopr, if_neg hc]
      · obtain rfl : min t mr = m := by simpa [mergeMin] using h
        have hmrgt := (minTimeAfter_gt time (catKeys rest) mr h2).1
        by_cases hmt : mr < t
        · rw [min_eq_right (le_of_lt hmt)]
          have hnost : ∀ x ∈ st, ((fun x => x.time == mr) x) = false := by
            intro x hx
            by_cases hxm : x.time = mr
            · exfalso
              have hxgt : time < x.time := hxm ▸ hmrgt
              have := minTimeAfter_min time st t hminst x hx hxgt
              rw [hxm] at this
              exact absurd hmt (not_lt_of_le this)
            · simpa using hxm
          have hidxapp : (catKeys (st :: rest)).findIdx (fun x => x.time == mr) =
              st.length + (catKeys rest).findIdx (fun x => x.time == mr) :=
            findIdx_append_of_none _ st (catKeys rest) hnost
          by_cases hc : optLt t timeNext = true
          · rw [if_pos hc,
              ih hsrest mr h2 (count + st.length) (Int.ofNat (count + k)) (some t)]
            have hoptr : optLt mr (some t) = true := by simpa [optLt] using hmt
            rw [if_pos hoptr]
            have hocond : optLt mr timeNext = true := by
              rcases timeNext with _ | x
              · rfl
              · simp only [optLt, decide_eq_true_eq] at hc ⊢
                exact lt_trans hmt hc
            rw [if_pos hocond, hidxapp]
            simp [Nat.add_assoc]
          · rw [if_neg hc, ih hsrest mr h2 (count + st.length) result timeNext]
            by_cases hc2 : optLt mr timeNext = true
            · rw [if_pos hc2, if_pos hc2, hidxapp]
              simp [Nat.add_assoc]
            · rw [if_neg hc2, if_neg hc2]
        · have hle : t ≤ mr := le_of_not_lt hmt
          rw [min_eq_left hle]
          by_cases hc : optLt t timeNext = true
          · rw [if_pos hc,
              ih hsrest mr h2 (count + st.length) (Int.ofNat (count + k)) (some t)]
            have hoptr : ¬ optLt mr (some t) = true := by simpa [optLt] using hmt
            rw [if_neg hoptr, if_pos hc,
              show catKeys (st :: rest) = st ++ catKeys rest from rfl,
              findIdx_append_of_mem _ st (catKeys rest) x0 hx0 (by simpa using hx0t), hidxst]
          · rw [if_neg hc, ih hsrest mr h2 (count + st.length) result timeNext]
            have hcr : ¬ optLt mr timeNext = true := by
              rcases timeNext with _ | x
              · exact absurd rfl hc
              · simp only [optLt, decide_eq_true_eq] at hc ⊢
                exact fun hmx => hc (lt_of_le_of_lt hle hmx)
            rw [if_neg hcr, if_neg hc]

/-- C5: `NextKeyByTime`.  On a compound track whose sub-tracks are each
ordered by ascending key time, queried at any valid flat index with time T,
the result is the claim's function: the flat index of the key with the
smallest time strictly greater than T — the first such key in flat order, so
ties go to the lower sub-track index — and -1 when no later key exists. -/
theorem nextKeyByTime_spec (tr : CompoundTrack) (f : ℕ) (i l : ℕ)
    (hsorted : ∀ st ∈ tr.subTracks, List.Pairwise (fun a b => a.time ≤ b.time) st)
    (_hvalid : getSubTrackIndex tr.subTracks f = some (i, l)) :
    nextKeyByTime tr f = claimedNextKeyByTime tr (getKeyTimeFlat tr f) := by
  rw [nextKeyByTime, claimedNextKeyByTime]
  rcases hm : minTimeAfter (getKeyTimeFlat tr f) (catKeys tr.subTracks) with _ | m
  · simp only [hm]
    exact nextLoop_char_none _ _ hm 0 (-1) none
  · simp only [hm]
    rw [nextLoop_char_some _ _ hsorted m hm 0 (-1) none]
    simp [optLt]

/-- Concrete instance of the C5 theorem, the claim's scenario: sub-track A
keys at times 0 and 2, sub-track B keys at times 1 and 3; from the key at
time 0 the result is flat index 2 — the key at time 1 on sub-track B (local
index 0), not the key at time 2. -/
theorem nextKeyByTime_spec_witness :
    nextKeyByTime ⟨[[⟨0, 5, false⟩, ⟨2, 6, false⟩], [⟨1, 7, false⟩, ⟨3, 8, false⟩]], .Generic⟩ 0 =
        claimedNextKeyByTime ⟨[[⟨0, 5, false⟩, ⟨2, 6, false⟩], [⟨1, 7, false⟩, ⟨3, 8, false⟩]], .Generic⟩
          (getKeyTimeFlat ⟨[[⟨0, 5, false⟩, ⟨2, 6, false⟩], [⟨1, 7, false⟩, ⟨3, 8, false⟩]], .Generic⟩ 0) ∧
      nextKeyByTime ⟨[[⟨0, 5, false⟩, ⟨2, 6, false⟩], [⟨1, 7, false⟩, ⟨3, 8, false⟩]], .Generic⟩ 0 = 2 ∧
      getSubTrackIndex ([[⟨0, 5, false⟩, ⟨2, 6, false⟩], [⟨1, 7, false⟩, ⟨3, 8, false⟩]] : List SubTrack) 2 =
        some (1, 0) := by
  refine ⟨nextKeyByTime_spec ⟨[[⟨0, 5, false⟩, ⟨2, 6, false⟩], [⟨1, 7, false⟩, ⟨3, 8, false⟩]], .Generic⟩
    0 0 0 (by decide) (by decide), ?_, by decide⟩
  norm_num [nextKeyByTime, nextLoop, firstAfter, optLt, getKeyTimeFlat, getSubTrackIndex,
    getST, subGetKeyTime]
